import Mathlib

set_option maxHeartbeats 1000000

/- Shallow embedding of tsdb/store.go from the freetsdb repository.

   Modelling conventions:
   - Go error values are modelled by their message strings; a Go nil error is
     Option.none, and fallible operations return Except or pair their result
     with an Option error.
   - Filesystem paths are modelled as lists of path components; filepath.Join
     is list append; the filesystem is the set of existing directories.
   - The opaque collaborators (the per-shard storage engine, the database
     index internals and the query language types) are not part of the
     excerpted source; they are modelled from the spec, with explicit result
     oracles for their fallible operations. -/

/-- Go error values are modelled by their message strings. -/
abbrev GoError := String

/-- Whether the first list occurs as a contiguous run inside the second. -/
def listIsInfix {α : Type} [BEq α] (pat : List α) : List α → Bool
  | [] => pat.isPrefixOf []
  | x :: rest => pat.isPrefixOf (x :: rest) || listIsInfix pat rest

/-- strings.Contains from the Go standard library: substring containment. -/
def strContains (s sub : String) : Bool :=
  listIsInfix sub.data s.data

/-- IsRetryable from store.go: an error is retryable unless its message
contains the substring "field type conflict"; a nil error is retryable. -/
def IsRetryable (err : Option GoError) : Bool :=
  match err with
  | none => true
  | some msg => !(strContains msg "field type conflict")

/-- models.Row as read by the store: the row name and its list of values;
the value type is a parameter standing for the opaque value slices. -/
structure Row (α : Type) where
  name : String
  values : List α

/-- The inner loop of filterShowSeriesResult over the values of one row:
a value is appended while the running count is at least offset and the
count since offset is below limit; every value seen bumps the count.
Returns the kept values together with the updated running count. -/
def filterRowValues {α : Type} (limit offset : Int) : Int → List α → List α × Int
  | count, [] => ([], count)
  | count, v :: rest =>
    let o := filterRowValues limit offset (count + 1) rest
    (if offset ≤ count ∧ count - offset < limit then v :: o.1 else o.1, o.2)

/-- The outer loop of filterShowSeriesResult over the rows: a row is kept
only if it retains at least one value, and scanning stops early once the
running count exceeds limit plus offset. -/
def filterShowSeriesRows {α : Type} (limit offset : Int) : Int → List (Row α) → List (Row α)
  | _, [] => []
  | count, r :: rest =>
    let p := filterRowValues limit offset count r.values
    if p.1.isEmpty then filterShowSeriesRows limit offset p.2 rest
    else
      { r with values := p.1 } ::
        (if limit + offset < p.2 then [] else filterShowSeriesRows limit offset p.2 rest)

/-- filterShowSeriesResult from store.go: limit and offset apply to the
flattened stream of values across the rows, not to the rows themselves. -/
def filterShowSeriesResult {α : Type} (limit offset : Int) (rows : List (Row α)) : List (Row α) :=
  filterShowSeriesRows limit offset 0 rows

/-- The pagination rule in the words of the spec: the value at flattened
position i (the first argument is the position of the head) is kept iff
offset ≤ i < offset + limit. -/
def keptValues {α : Type} (limit offset : Int) : Int → List α → List α
  | _, [] => []
  | i, v :: rest =>
    (if offset ≤ i ∧ i < offset + limit then [v] else []) ++
      keptValues limit offset (i + 1) rest

/-- Specification-side pagination, following the words of the spec: values
are kept by flattened position, rows left with zero kept values are omitted,
with no early stop. -/
def filterShowSeriesSpecRows {α : Type} (limit offset : Int) : Int → List (Row α) → List (Row α)
  | _, [] => []
  | count, r :: rest =>
    let kept := keptValues limit offset count r.values
    (if kept.isEmpty then [] else [{ r with values := kept }]) ++
      filterShowSeriesSpecRows limit offset (count + r.values.length) rest

/-- Specification-side pagination starting the flattened position at 0. -/
def filterShowSeriesSpec {α : Type} (limit offset : Int) (rows : List (Row α)) : List (Row α) :=
  filterShowSeriesSpecRows limit offset 0 rows

/-- Paths are lists of components; filepath.Join is list append. -/
abbrev GoPath := List String

/-- The filesystem: the set of directories that exist, as a list of paths. -/
abbrev FileSystem := List GoPath

/-- os.MkdirAll: creates the directory and every missing ancestor. -/
def mkdirAll (fs : FileSystem) (p : GoPath) : FileSystem :=
  fs ++ p.inits.filter (fun q => !(fs.contains q))

/-- os.RemoveAll: removes the directory and everything below it. -/
def removeAll (fs : FileSystem) (p : GoPath) : FileSystem :=
  fs.filter (fun q => !(p.isPrefixOf q))

/-- Opaque token standing for an influxql WHERE expression; its meaning
lives in the walkWhere oracle of each measurement. -/
structure Cond where
  tag : Nat

/-- Modelled from the spec: a measurement inside a Database Index (the
index internals are not part of the excerpted source). seriesIDs lists the
series ids of the measurement, seriesKeyOf gives the key string of a
series id (seriesByID), and walkWhere is walkWhereForSeriesIds followed by
FilterExprs.DeleteBoolLiteralTrues: it yields the candidate series ids and
the number of residual filter expressions. -/
structure Measurement where
  name : String
  seriesIDs : List Nat
  seriesKeyOf : Nat → String
  walkWhere : Cond → Except GoError (List Nat × Nat)

/-- Modelled from the spec: the per-database catalog of measurements. -/
structure DatabaseIndex where
  name : String
  measurements : List Measurement

/-- NewDatabaseIndex: a fresh, empty catalog. -/
def NewDatabaseIndex (name : String) : DatabaseIndex :=
  ⟨name, []⟩

/-- The map lookup db.measurements[name]. -/
def DatabaseIndex.findMeasurement (db : DatabaseIndex) (name : String) : Option Measurement :=
  db.measurements.find? (fun m => m.name == name)

/-- Modelled from the spec: Measurement.SeriesKeys, the key strings of all
series of the measurement. -/
def Measurement.allSeriesKeys (m : Measurement) : List String :=
  m.seriesIDs.map m.seriesKeyOf

/-- Modelled from the spec: DatabaseIndex.DropMeasurement updates only the
index, removing the named measurement. -/
def DatabaseIndex.dropMeasurement (db : DatabaseIndex) (name : String) : DatabaseIndex :=
  { db with measurements := db.measurements.filter (fun m => m.name != name) }

/-- Modelled from the spec: DatabaseIndex.DropSeries updates only the
index, removing the given series keys from every measurement. -/
def DatabaseIndex.dropSeries (db : DatabaseIndex) (keys : List String) : DatabaseIndex :=
  { db with measurements := db.measurements.map (fun m =>
      { m with seriesIDs :=
          m.seriesIDs.filter (fun i => !(keys.contains (m.seriesKeyOf i))) }) }

/-- models.Point is opaque to the store; points are engine payloads. -/
abbrev Point := String

/-- A Shard Handle: identity, location and the opaque engine. The engine is
an external collaborator: its state is the data it holds, and each fallible
engine operation has a result oracle (none means the call succeeds). -/
structure Shard where
  id : Nat
  database : String
  retentionPolicy : String
  path : GoPath
  walPath : GoPath
  engineSeries : List String
  enginePoints : List Point
  deleteSeriesErr : Option GoError
  deleteMeasurementErr : Option GoError
  writeErr : Option GoError
  closeErr : Option GoError

/-- The effect of a successful engine-level series deletion on one shard:
the given keys are gone from the engine. -/
def Shard.removeSeriesKeys (sh : Shard) (keys : List String) : Shard :=
  { sh with engineSeries := sh.engineSeries.filter (fun k => !(keys.contains k)) }

/-- ErrStoreClosed from store.go. -/
def errStoreClosed : GoError := "store is closed"

/-- ErrShardNotFound from store.go. -/
def errShardNotFound : GoError := "shard not found"

/-- Modelled from the spec: influxql.ErrMeasurementNotFound. -/
def errMeasurementNotFound (name : String) : GoError :=
  "measurement not found: " ++ name

/-- Modelled from the spec: influxql.ErrDatabaseNotFound. -/
def errDatabaseNotFound (name : String) : GoError :=
  "database not found: " ++ name

/-- The Store: the shard registry, the database indexes, the two root
paths, the closing signal and the filesystem it operates on. shardOpenErr
is the oracle for Shard.Open of a newly created shard. -/
structure Store where
  path : GoPath
  walDir : GoPath
  databaseIndexes : List (String × DatabaseIndex)
  shards : List Shard
  closingClosed : Bool
  fs : FileSystem
  shardOpenErr : Nat → Option GoError

/-- The map lookup s.databaseIndexes[name]. -/
def Store.lookupIndex (s : Store) (name : String) : Option DatabaseIndex :=
  s.databaseIndexes.lookup name

/-- The map lookup s.shards[id]. -/
def Store.findShard (s : Store) (id : Nat) : Option Shard :=
  s.shards.find? (fun sh => sh.id == id)

/-- Replaces the index stored under the given database name. -/
def updateIndexes (idxs : List (String × DatabaseIndex)) (name : String)
    (db : DatabaseIndex) : List (String × DatabaseIndex) :=
  idxs.map (fun p => if p.1 == name then (p.1, db) else p)

/-- A freshly constructed Shard Handle wrapping a fresh engine. -/
def NewShard (id : Nat) (database retentionPolicy : String)
    (path walPath : GoPath) : Shard :=
  { id, database, retentionPolicy, path, walPath,
    engineSeries := [], enginePoints := [],
    deleteSeriesErr := none, deleteMeasurementErr := none,
    writeErr := none, closeErr := none }

/-- Store.CreateShard from store.go: rejected when closing; a silent
success when the shard id already exists; otherwise creates the data and
write-ahead directories, lazily creates the database index, and opens and
registers a new shard. -/
def Store.CreateShard (s : Store) (database retentionPolicy : String)
    (shardID : Nat) : Except GoError Unit × Store :=
  if s.closingClosed then (.error errStoreClosed, s)
  else if (s.findShard shardID).isSome then (.ok (), s)
  else
    let fs1 := mkdirAll s.fs (s.path ++ [database, retentionPolicy])
    let walPath := s.walDir ++ [database, retentionPolicy, toString shardID]
    let fs2 := mkdirAll fs1 walPath
    let idxs :=
      match s.lookupIndex database with
      | some _ => s.databaseIndexes
      | none => s.databaseIndexes ++ [(database, NewDatabaseIndex database)]
    let path := s.path ++ [database, retentionPolicy, toString shardID]
    match s.shardOpenErr shardID with
    | some e => (.error e, { s with fs := fs2, databaseIndexes := idxs })
    | none =>
      (.ok (),
        { s with
          fs := fs2
          databaseIndexes := idxs
          shards := s.shards ++ [NewShard shardID database retentionPolicy path walPath] })

/-- Store.WriteToShard from store.go: rejected when closing; unknown shard
ids fail with ErrShardNotFound; otherwise the points go to the engine of
the shard. -/
def Store.WriteToShard (s : Store) (shardID : Nat) (points : List Point) :
    Except GoError Unit × Store :=
  if s.closingClosed then (.error errStoreClosed, s)
  else
    match s.findShard shardID with
    | none => (.error errShardNotFound, s)
    | some sh =>
      match sh.writeErr with
      | some e => (.error e, s)
      | none =>
        (.ok (), { s with shards := s.shards.map (fun x =>
          if x.id == shardID then { x with enginePoints := x.enginePoints ++ points }
          else x) })

/-- The private Store.deleteShard from store.go: a no-op for an unknown id;
otherwise closes the shard, removes its data and write-ahead directories
and removes it from the registry. -/
def Store.deleteShard (s : Store) (shardID : Nat) : Except GoError Store :=
  match s.findShard shardID with
  | none => .ok s
  | some sh =>
    match sh.closeErr with
    | some e => .error e
    | none =>
      let fs1 := removeAll s.fs sh.path
      let fs2 := removeAll fs1 sh.walPath
      .ok { s with fs := fs2, shards := s.shards.filter (fun x => x.id != shardID) }

/-- The shard loop of Store.DeleteDatabase: every shard of the database is
deleted through Store.deleteShard; the first failure aborts the loop. -/
def deleteDatabaseShards (name : String) : Store → List Shard → Option GoError × Store
  | s, [] => (none, s)
  | s, sh :: rest =>
    if sh.database == name then
      match s.deleteShard sh.id with
      | .error e => (some e, s)
      | .ok s1 => deleteDatabaseShards name s1 rest
    else deleteDatabaseShards name s rest

/-- Store.DeleteDatabase from store.go: deletes every shard of the
database, removes the data and write-ahead root directories of the
database, and drops the index entry. -/
def Store.DeleteDatabase (s : Store) (name : String) : Except GoError Unit × Store :=
  let p := deleteDatabaseShards name s s.shards
  match p.1 with
  | some e => (.error e, p.2)
  | none =>
    let fs1 := removeAll p.2.fs (p.2.path ++ [name])
    let fs2 := removeAll fs1 (p.2.walDir ++ [name])
    (.ok (),
      { p.2 with
        fs := fs2
        databaseIndexes := p.2.databaseIndexes.filter (fun q => q.1 != name) })

/-- The engine DeleteMeasurement loop of Store.DeleteMeasurement over the
shards: shards of other databases are skipped; the first engine failure
aborts with that error, keeping the mutations already applied. -/
def deleteMeasurementShards (database : String) (keys : List String) :
    List Shard → Option GoError × List Shard
  | [] => (none, [])
  | sh :: rest =>
    if sh.database == database then
      match sh.deleteMeasurementErr with
      | some e => (some e, sh :: rest)
      | none =>
        let p := deleteMeasurementShards database keys rest
        (p.1, sh.removeSeriesKeys keys :: p.2)
    else
      let p := deleteMeasurementShards database keys rest
      (p.1, sh :: p.2)

/-- Store.DeleteMeasurement from store.go: an unknown database is a silent
no-op; a missing measurement is the measurement-not-found error; otherwise
the measurement is dropped from the index first and its series data is then
deleted from every shard of the database. -/
def Store.DeleteMeasurement (s : Store) (database name : String) :
    Except GoError Unit × Store :=
  match s.lookupIndex database with
  | none => (.ok (), s)
  | some db =>
    match db.findMeasurement name with
    | none => (.error (errMeasurementNotFound name), s)
    | some m =>
      let db1 := db.dropMeasurement m.name
      let s1 := { s with databaseIndexes := updateIndexes s.databaseIndexes database db1 }
      let p := deleteMeasurementShards database m.allSeriesKeys s1.shards
      match p.1 with
      | some e => (.error e, { s1 with shards := p.2 })
      | none => (.ok (), { s1 with shards := p.2 })

/-- A concrete measurement for evaluating the theorems on closed inputs. -/
def sampleMeasurement : Measurement :=
  ⟨"cpu", [1, 2], fun i => "cpu,host=" ++ toString i, fun _ => .ok ([], 0)⟩

/-- A concrete database index holding only sampleMeasurement. -/
def sampleIndex : DatabaseIndex :=
  ⟨"db0", [sampleMeasurement]⟩

/-- A concrete shard of database db0. -/
def sampleShard : Shard :=
  { id := 1
    database := "db0"
    retentionPolicy := "rp0"
    path := ["data", "db0", "rp0", "1"]
    walPath := ["wal", "db0", "rp0", "1"]
    engineSeries := ["cpu,host=1", "cpu,host=2"]
    enginePoints := []
    deleteSeriesErr := none
    deleteMeasurementErr := none
    writeErr := none
    closeErr := none }

/-- A concrete open store with one database and one shard. -/
def sampleStore : Store :=
  { path := ["data"]
    walDir := ["wal"]
    databaseIndexes := [("db0", sampleIndex)]
    shards := [sampleShard]
    closingClosed := false
    fs := [["data"], ["data", "db0"], ["data", "db0", "rp0"]]
    shardOpenErr := fun _ => none }

/-- The sample store after the closing signal has been raised. -/
def closedStore : Store :=
  { sampleStore with closingClosed := true }

/-- The sample store with no shards at all. -/
def emptyShardStore : Store :=
  { sampleStore with shards := [] }

/-- Modelled from the spec: a compiled regular expression is opaque to the
store; only its matching function matters here. -/
def Regex := String → Bool

/-- Modelled from the spec: influxql.Measurement, a measurement reference
of a FROM clause: database, retention policy, name, and an optional regex
standing in for the name. -/
structure Msmt where
  database : String
  retentionPolicy : String
  name : String
  regex : Option Regex

/-- Modelled from the spec: influxql.Source; the store supports only
measurement references and rejects every other variant (the string stands
for the Go type name printed in the error message). -/
inductive Source where
  | meas (m : Msmt)
  | other (tname : String)

/-- Whether a source is a measurement reference. -/
def Source.isMeas : Source → Bool
  | .meas _ => true
  | .other _ => false

/-- The double-quote character, written by its code point. -/
def qChar : Char := Char.ofNat 34

/-- The backslash character, written by its code point. -/
def bChar : Char := Char.ofNat 92

/-- Modelled from the spec: influxql identifier quoting escapes the quote
and the backslash. -/
def escChar (c : Char) : List Char :=
  if c = qChar ∨ c = bChar then [bChar, c] else [c]

/-- The escaped body of a quoted identifier. -/
def escStr : List Char → List Char
  | [] => []
  | c :: rest => escChar c ++ escStr rest

/-- Modelled from the spec: the canonical string form of a literal
measurement reference (Measurement.String()): the quoted database,
retention policy and name joined by dots. -/
def mString (m : Msmt) : String :=
  ⟨qChar :: (escStr m.database.data ++ qChar :: '.' :: qChar ::
    (escStr m.retentionPolicy.data ++ qChar :: '.' :: qChar ::
      (escStr m.name.data ++ [qChar])))⟩

/-- Modelled from the spec: DatabaseIndex.MeasurementsByRegex returns every
measurement whose name the pattern matches. -/
def DatabaseIndex.measurementsByRegex (db : DatabaseIndex) (r : Regex) : List Measurement :=
  db.measurements.filter (fun m => r m.name)

/-- The deduplication map of expandSources, with the Go map assignment
semantics: assigning to an existing key replaces its value; a new key is
appended. -/
def setInsert (set : List (String × Msmt)) (k : String) (v : Msmt) :
    List (String × Msmt) :=
  if set.any (fun p => p.1 == k) then
    set.map (fun p => if p.1 == k then (k, v) else p)
  else set ++ [(k, v)]

/-- The Go map read set[k]. -/
def lookupSet : List (String × Msmt) → String → Option Msmt
  | [], _ => none
  | p :: rest, k => if p.1 == k then some p.2 else lookupSet rest k

/-- The keys of the deduplication map. -/
def setKeys (set : List (String × Msmt)) : List String :=
  set.map (fun p => p.1)

/-- The invariant of the deduplication map: every stored reference is a
literal whose canonical form is its key, and the keys are distinct. -/
def goodSet (set : List (String × Msmt)) : Prop :=
  (∀ p ∈ set, p.2.regex = none ∧ mString p.2 = p.1) ∧ (setKeys set).Nodup

/-- Byte-wise (code-point) lexicographic comparison of the character
lists, the order used by sort.Strings of the Go standard library. -/
def listLeb : List Char → List Char → Bool
  | [], _ => true
  | _ :: _, [] => false
  | a :: as, b :: bs => if a < b then true else if b < a then false else listLeb as bs

/-- The sort relation of sort.Strings, on the character lists. -/
def strLe (a b : String) : Prop := listLeb a.data b.data = true

instance : DecidableRel strLe := fun a b =>
  inferInstanceAs (Decidable (listLeb a.data b.data = true))

instance : IsTotal String strLe := by
  constructor
  intro a b
  unfold strLe
  generalize a.data = x
  generalize b.data = y
  induction x generalizing y with
  | nil => left; rfl
  | cons c cs ih =>
    cases y with
    | nil => right; rfl
    | cons d ds =>
      rcases lt_trichotomy c d with h | h | h
      · left; simp [listLeb, h]
      · subst h
        rcases ih ds with h2 | h2
        · left; simp [listLeb, lt_irrefl, h2]
        · right; simp [listLeb, lt_irrefl, h2]
      · right; simp [listLeb, h, asymm h]

instance : IsTrans String strLe := by
  constructor
  intro a b c
  unfold strLe
  generalize a.data = x
  generalize b.data = y
  generalize c.data = z
  induction x generalizing y z with
  | nil => intro _ _; rfl
  | cons p ps ih =>
    intro h1 h2
    cases y with
    | nil => simp [listLeb] at h1
    | cons q qs =>
      cases z with
      | nil => simp [listLeb] at h2
      | cons r rs =>
        by_cases hpq : p < q
        · by_cases hqr : q < r
          · simp [listLeb, lt_trans hpq hqr]
          · by_cases hrq : r < q
            · simp [listLeb, hqr, hrq] at h2
            · have hqr2 : q = r := le_antisymm (not_lt.mp hrq) (not_lt.mp hqr)
              subst hqr2
              simp [listLeb, hpq]
        · by_cases hqp : q < p
          · simp [listLeb, hpq, hqp] at h1
          · have hpq2 : p = q := le_antisymm (not_lt.mp hqp) (not_lt.mp hpq)
            subst hpq2
            simp only [listLeb, lt_irrefl, if_false] at h1
            by_cases hpr : p < r
            · simp [listLeb, hpr]
            · by_cases hrp : r < p
              · simp [listLeb, hpr, hrp] at h2
              · have hpr2 : p = r := le_antisymm (not_lt.mp hrp) (not_lt.mp hpr)
                subst hpr2
                simp only [listLeb, lt_irrefl, if_false] at h2 ⊢
                exact ih qs rs h1 h2

instance : IsAntisymm String strLe := by
  constructor
  intro a b h1 h2
  unfold strLe at h1 h2
  cases a with
  | mk d1 =>
    cases b with
    | mk d2 =>
      apply congrArg String.mk
      revert h1 h2
      show listLeb d1 d2 = true → listLeb d2 d1 = true → d1 = d2
      generalize d1 = x
      generalize d2 = y
      induction x generalizing y with
  | nil =>
    intro h1 h2
    cases y with
    | nil => rfl
    | cons q qs => simp [listLeb] at h2
  | cons p ps ih =>
    intro h1 h2
    cases y with
    | nil => simp [listLeb] at h1
    | cons q qs =>
      by_cases hpq : p < q
      · simp [listLeb, hpq, asymm hpq] at h2
      · by_cases hqp : q < p
        · simp [listLeb, hpq, hqp] at h1
        · have hpq2 : p = q := le_antisymm (not_lt.mp hqp) (not_lt.mp hpq)
          subst hpq2
          simp only [listLeb, lt_irrefl, if_false] at h1 h2
          rw [ih qs h1 h2]

/-- The inner loop of the regex branch of expandSources: every matching
measurement enters the deduplication map as a literal reference. -/
def insertMatches (dbn rpn : String) (ms : List Measurement)
    (set : List (String × Msmt)) : List (String × Msmt) :=
  ms.foldl (fun acc mm =>
    setInsert acc (mString ⟨dbn, rpn, mm.name, none⟩) ⟨dbn, rpn, mm.name, none⟩) set

/-- The outcome of the source loop of expandSources. -/
inductive ExpandOutcome where
  | err (e : GoError)
  | emptyEarly
  | done (set : List (String × Msmt))

/-- The source loop of expandSources from store.go: a literal reference
enters the deduplication map keyed by its canonical form; a regex
reference is resolved against the index of its database, every match
entering the map as a literal; a regex scoped to an unknown database
aborts the whole call with the empty result; any other source kind is an
unsupported-source error. -/
def expandLoop (s : Store) : List Source → List (String × Msmt) → ExpandOutcome
  | [], set => .done set
  | src :: rest, set =>
    match src with
    | .other tname => .err ("expandSources: unsupported source type: " ++ tname)
    | .meas m =>
      match m.regex with
      | none => expandLoop s rest (setInsert set (mString m) m)
      | some r =>
        match s.lookupIndex m.database with
        | none => .emptyEarly
        | some db =>
          expandLoop s rest (insertMatches m.database m.retentionPolicy
            (db.measurementsByRegex r) set)

/-- expandSources from store.go: the deduplication map is built over all
sources, its keys are sorted, and the stored references are emitted in
sorted key order. -/
def Store.expandSources (s : Store) (sources : List Source) :
    Except GoError (List Source) :=
  match expandLoop s sources [] with
  | .err e => .error e
  | .emptyEarly => .ok []
  | .done set =>
    let names := (setKeys set).insertionSort strLe
    .ok (names.filterMap (fun n => (lookupSet set n).map Source.meas))

/-- The canonical keys one source contributes to the deduplication map. -/
def srcKeys (s : Store) : Source → List String
  | .other _ => []
  | .meas m =>
    match m.regex with
    | none => [mString m]
    | some r =>
      match s.lookupIndex m.database with
      | none => []
      | some db => (db.measurementsByRegex r).map
          (fun mm => mString ⟨m.database, m.retentionPolicy, mm.name, none⟩)

/-- All keys the sources contribute, in order. -/
def sourcesKeys (s : Store) (l : List Source) : List String :=
  (l.map (srcKeys s)).flatten

/-- Whether some source is a regex reference scoped to a database that has
no index entry. -/
def hasUnknownRegex (s : Store) (l : List Source) : Prop :=
  ∃ m r, Source.meas m ∈ l ∧ m.regex = some r ∧ s.lookupIndex m.database = none

/-- A measurement of the C3 example index; only the name matters there. -/
def namedMeasurement (nm : String) : Measurement :=
  ⟨nm, [], fun _ => "", fun _ => .ok ([], 0)⟩

/-- The C3 example index: measurements cpu, cpu_load and mem. -/
def c3Index : DatabaseIndex :=
  ⟨"db0", [namedMeasurement "cpu", namedMeasurement "cpu_load", namedMeasurement "mem"]⟩

/-- Modelled from the spec: the matcher of the Go pattern cpu.*; Go regexp
matching is unanchored, so the pattern matches every name containing cpu. -/
def cpuStarRegex : Regex := fun nm => strContains nm "cpu"

/-- The C3 example store. -/
def c3Store : Store :=
  { sampleStore with databaseIndexes := [("db0", c3Index)] }

/-- The C3 example source: the regex reference cpu.* scoped to db0. -/
def c3Src : Source := .meas ⟨"db0", "rp0", "", some cpuStarRegex⟩

/-- The engine-level and index-level deletion effects a DeleteSeries call
emits, in call order. -/
inductive Event where
  | engineDeleteSeries (shardId : Nat) (keys : List String)
  | indexDropSeries (database : String) (keys : List String)

/-- Whether an event is an engine-level series deletion on a shard. -/
def Event.isEngineDel : Event → Bool
  | .engineDeleteSeries _ _ => true
  | _ => false

/-- Whether an event is the index-level series drop. -/
def Event.isIndexDrop : Event → Bool
  | .indexDropSeries _ _ => true
  | _ => false

/-- The result of the shard loop of the private Store.deleteSeries. -/
structure LoopOut where
  err : Option GoError
  shards : List Shard
  trace : List Event

/-- The shard loop of the private Store.deleteSeries from store.go: shards
of other databases are skipped; each shard of the database receives the
engine-level DeleteSeries call (recorded as an event); the first failure
aborts the loop, keeping the mutations already applied to earlier
shards. -/
def deleteSeriesLoop (database : String) (keys : List String) : List Shard → LoopOut
  | [] => ⟨none, [], []⟩
  | sh :: rest =>
    if sh.database == database then
      match sh.deleteSeriesErr with
      | some e => ⟨some e, sh :: rest, [.engineDeleteSeries sh.id keys]⟩
      | none =>
        let o := deleteSeriesLoop database keys rest
        ⟨o.err, sh.removeSeriesKeys keys :: o.shards,
          .engineDeleteSeries sh.id keys :: o.trace⟩
    else
      let o := deleteSeriesLoop database keys rest
      ⟨o.err, sh :: o.shards, o.trace⟩

/-- The private Store.deleteSeries from store.go: an unknown database is
the database-not-found error; otherwise the shard loop runs. -/
def Store.deleteSeriesShards (s : Store) (database : String) (keys : List String) :
    Except GoError Unit × Store × List Event :=
  if (s.lookupIndex database).isSome then
    let o := deleteSeriesLoop database keys s.shards
    match o.err with
    | some e => (.error e, { s with shards := o.shards }, o.trace)
    | none => (.ok (), { s with shards := o.shards }, o.trace)
  else (.error (errDatabaseNotFound database), s, [])

/-- The per-source measurement collection of measurementsFromSourcesOrDB
from store.go: named references select their measurement, missing names
are skipped, any non-measurement reference is an error. -/
def collectMeasurements (db : DatabaseIndex) : List Source → Except GoError (List Measurement)
  | [] => .ok []
  | .other _ :: _ => .error "identifiers in FROM clause must be measurement names"
  | .meas m :: rest =>
    match collectMeasurements db rest with
    | .error e => .error e
    | .ok ms =>
      match db.findMeasurement m.name with
      | none => .ok ms
      | some mm => .ok (mm :: ms)

/-- Modelled from the spec: the Measurements collection sorts by name. -/
def measurementLe (a b : Measurement) : Prop := strLe a.name b.name

instance : DecidableRel measurementLe := fun a b =>
  inferInstanceAs (Decidable (strLe a.name b.name))

/-- measurementsFromSourcesOrDB from store.go: with sources, their
measurements; with none, every measurement that has series; sorted by
name either way. -/
def measurementsFromSourcesOrDB (db : DatabaseIndex) (sources : List Source) :
    Except GoError (List Measurement) :=
  if sources.length > 0 then
    match collectMeasurements db sources with
    | .error e => .error e
    | .ok ms => .ok (ms.insertionSort measurementLe)
  else
    .ok ((db.measurements.filter
      (fun m => decide (0 < m.seriesIDs.length))).insertionSort measurementLe)

/-- The per-measurement series selection of DeleteSeries from store.go:
without a condition, every series id of the measurement; with one, the
ids of the tag-index walk, rejecting residual field filters; the key
strings of the selected ids are collected across the measurements in
order. -/
def collectSeriesKeys (condition : Option Cond) :
    List Measurement → Except GoError (List String)
  | [] => .ok []
  | m :: rest =>
    match (match condition with
      | none => Except.ok m.seriesIDs
      | some c =>
        match m.walkWhere c with
        | .error e => .error e
        | .ok (ids, filtersLen) =>
          if filtersLen > 0 then
            .error "DROP SERIES doesn\x27t support fields in WHERE clause"
          else .ok ids) with
    | .error e => .error e
    | .ok ids =>
      match collectSeriesKeys condition rest with
      | .error e => .error e
      | .ok restKeys => .ok (ids.map m.seriesKeyOf ++ restKeys)

/-- The result of a DeleteSeries call: the Go return value, the resulting
store, and the ordered trace of engine-level and index-level deletions. -/
structure DSOut where
  res : Except GoError Unit
  store : Store
  trace : List Event

/-- Store.DeleteSeries from store.go: an unknown database is a silent
no-op; the sources are expanded (a non-empty source list expanding to
nothing is a no-op); the series keys of every selected measurement are
collected; the keys are deleted from every shard of the database at the
engine level, and only after every shard succeeded are they dropped from
the Database Index. -/
def Store.DeleteSeries (s : Store) (database : String) (sources : List Source)
    (condition : Option Cond) : DSOut :=
  match s.lookupIndex database with
  | none => ⟨.ok (), s, []⟩
  | some db =>
    match s.expandSources sources with
    | .error e => ⟨.error e, s, []⟩
    | .ok a =>
      if !sources.isEmpty && a.isEmpty then ⟨.ok (), s, []⟩
      else
        match measurementsFromSourcesOrDB db a with
        | .error e => ⟨.error e, s, []⟩
        | .ok measurements =>
          match collectSeriesKeys condition measurements with
          | .error e => ⟨.error e, s, []⟩
          | .ok seriesKeys =>
            match s.deleteSeriesShards database seriesKeys with
            | (.error e, s1, tr) => ⟨.error e, s1, tr⟩
            | (.ok _, s1, tr) =>
              let s2 := { s1 with
                databaseIndexes :=
                  updateIndexes s1.databaseIndexes database (db.dropSeries seriesKeys) }
              ⟨.ok (), s2, tr ++ [.indexDropSeries database seriesKeys]⟩

/-- The C4 example source: a regex reference scoped to the unknown
database dbX. -/
def c4Regex : Source := .meas ⟨"dbX", "rp0", "", some cpuStarRegex⟩

theorem filterRowValues_eq {α : Type} (limit offset : Int) :
    ∀ (vals : List α) (count : Int),
      filterRowValues limit offset count vals =
        (keptValues limit offset count vals, count + vals.length) := by
  intro vals
  induction vals with
  | nil => intro count; simp [filterRowValues, keptValues]
  | cons v rest ih =>
    intro count
    simp only [filterRowValues, keptValues, ih (count + 1), Prod.mk.injEq]
    constructor
    · by_cases h : offset ≤ count ∧ count - offset < limit
      · have h2 : offset ≤ count ∧ count < offset + limit := by omega
        simp [h, h2]
      · have h2 : ¬(offset ≤ count ∧ count < offset + limit) := by omega
        simp [h, h2]
    · simp only [List.length_cons]
      push_cast
      omega

theorem keptValues_eq_nil_of_le {α : Type} (limit offset : Int) :
    ∀ (vals : List α) (i : Int), offset + limit ≤ i →
      keptValues limit offset i vals = [] := by
  intro vals
  induction vals with
  | nil => intro i _; simp [keptValues]
  | cons v rest ih =>
    intro i hi
    have h : ¬(offset ≤ i ∧ i < offset + limit) := by omega
    simp [keptValues, h, ih (i + 1) (by omega)]

theorem filterShowSeriesSpecRows_eq_nil_of_le {α : Type} (limit offset : Int) :
    ∀ (rows : List (Row α)) (count : Int), offset + limit ≤ count →
      filterShowSeriesSpecRows limit offset count rows = [] := by
  intro rows
  induction rows with
  | nil => intro count _; simp [filterShowSeriesSpecRows]
  | cons r rest ih =>
    intro count hc
    have hk : keptValues limit offset count r.values = [] :=
      keptValues_eq_nil_of_le limit offset r.values count hc
    have hlen : (0 : Int) ≤ r.values.length := by positivity
    simp [filterShowSeriesSpecRows, hk, ih (count + r.values.length) (by omega)]

theorem filterShowSeriesRows_eq_spec {α : Type} (limit offset : Int) :
    ∀ (rows : List (Row α)) (count : Int),
      filterShowSeriesRows limit offset count rows =
        filterShowSeriesSpecRows limit offset count rows := by
  intro rows
  induction rows with
  | nil => intro count; rfl
  | cons r rest ih =>
    intro count
    simp only [filterShowSeriesRows, filterShowSeriesSpecRows,
      filterRowValues_eq limit offset r.values count]
    by_cases hk : (keptValues limit offset count r.values).isEmpty
    · simp [hk, ih (count + r.values.length)]
    · rw [if_neg hk, if_neg hk, List.singleton_append]
      by_cases hstop : limit + offset < count + (r.values.length : Int)
      · rw [if_pos hstop,
          filterShowSeriesSpecRows_eq_nil_of_le limit offset rest _ (by omega)]
      · rw [if_neg hstop, ih (count + r.values.length)]

/-- C2: filterShowSeriesResult paginates the flattened stream of values:
the result equals the positional specification (value at flattened
position i kept iff offset ≤ i < offset + limit, rows with zero kept
values omitted), and on two rows with values [a,b,c] and [d,e] with
limit 2 and offset 1 the result is exactly the first row with values
[b,c]. -/
theorem filterShowSeriesResult_paginates_flattened_values :
    (∀ (α : Type) (limit offset : Int) (rows : List (Row α)),
        filterShowSeriesResult limit offset rows = filterShowSeriesSpec limit offset rows)
    ∧ filterShowSeriesResult 2 1
        [⟨"row1", ["a", "b", "c"]⟩, ⟨"row2", ["d", "e"]⟩] =
        [⟨"row1", ["b", "c"]⟩] := by
  constructor
  · intro α limit offset rows
    exact filterShowSeriesRows_eq_spec limit offset rows 0
  · rfl

/-- C10: IsRetryable returns false iff the error is non-nil and its message
contains the substring "field type conflict"; in particular IsRetryable of
the nil error is true. -/
theorem IsRetryable_false_iff_field_type_conflict :
    (∀ err : Option GoError,
        (IsRetryable err = false ↔
          ∃ msg, err = some msg ∧ strContains msg "field type conflict" = true))
    ∧ IsRetryable none = true := by
  refine ⟨fun err => ?_, rfl⟩
  cases err with
  | none => simp [IsRetryable]
  | some msg => simp [IsRetryable]

/-- C5: DeleteMeasurement fails with the measurement-not-found error
whenever the index of the database exists but holds no measurement of the
given name, and in that case the store (index map, shard map and engine
data) is unchanged. -/
theorem DeleteMeasurement_not_found_error_no_mutation :
    ∀ (s : Store) (database name : String) (db : DatabaseIndex),
      s.lookupIndex database = some db →
      db.findMeasurement name = none →
      s.DeleteMeasurement database name = (.error (errMeasurementNotFound name), s) := by
  intro s database name db h1 h2
  simp [Store.DeleteMeasurement, h1, h2]

/-- C5 witness: the sample store has no measurement named mem in db0. -/
theorem DeleteMeasurement_not_found_error_no_mutation_witness :
    sampleStore.lookupIndex "db0" = some sampleIndex
    ∧ sampleIndex.findMeasurement "mem" = none
    ∧ sampleStore.DeleteMeasurement "db0" "mem" =
        (.error (errMeasurementNotFound "mem"), sampleStore) :=
  ⟨rfl, rfl,
    DeleteMeasurement_not_found_error_no_mutation sampleStore "db0" "mem" sampleIndex rfl rfl⟩

/-- C6: DeleteMeasurement on a database with no index entry returns success
and leaves the whole store unchanged. -/
theorem DeleteMeasurement_unknown_database_noop :
    ∀ (s : Store) (database name : String),
      s.lookupIndex database = none →
      s.DeleteMeasurement database name = (.ok (), s) := by
  intro s database name h
  simp [Store.DeleteMeasurement, h]

/-- C6 witness: the sample store has no database named dbX. -/
theorem DeleteMeasurement_unknown_database_noop_witness :
    sampleStore.lookupIndex "dbX" = none
    ∧ sampleStore.DeleteMeasurement "dbX" "cpu" = (.ok (), sampleStore) :=
  ⟨rfl, DeleteMeasurement_unknown_database_noop sampleStore "dbX" "cpu" rfl⟩

/-- C7: once the closing signal is raised, CreateShard and WriteToShard
both return the closed-store error and leave the store (registry,
filesystem and engines) unchanged. -/
theorem closed_store_rejects_CreateShard_WriteToShard :
    ∀ (s : Store) (database retentionPolicy : String) (shardID : Nat)
      (points : List Point),
      s.closingClosed = true →
      s.CreateShard database retentionPolicy shardID = (.error errStoreClosed, s)
      ∧ s.WriteToShard shardID points = (.error errStoreClosed, s) := by
  intro s database retentionPolicy shardID points h
  exact ⟨by simp [Store.CreateShard, h], by simp [Store.WriteToShard, h]⟩

/-- C7 witness: the closed sample store rejects both calls. -/
theorem closed_store_rejects_CreateShard_WriteToShard_witness :
    closedStore.closingClosed = true
    ∧ closedStore.CreateShard "db0" "rp0" 2 = (.error errStoreClosed, closedStore)
    ∧ closedStore.WriteToShard 1 ["p1"] = (.error errStoreClosed, closedStore) :=
  ⟨rfl,
    (closed_store_rejects_CreateShard_WriteToShard closedStore "db0" "rp0" 2 ["p1"] rfl).1,
    (closed_store_rejects_CreateShard_WriteToShard closedStore "db0" "rp0" 2 ["p1"] rfl).2⟩

theorem isSome_find?_append {α : Type} (p : α → Bool) (l : List α) (x : α)
    (hx : p x = true) : ((l ++ [x]).find? p).isSome = true := by
  induction l with
  | nil => simp [List.find?, hx]
  | cons a l ih =>
    by_cases ha : p a
    · simp [List.find?_cons_of_pos, ha]
    · simpa [List.find?_cons_of_neg, ha] using ih

theorem CreateShard_existing_noop (s : Store) (database retentionPolicy : String)
    (shardID : Nat) (hc : s.closingClosed = false)
    (hf : (s.findShard shardID).isSome = true) :
    s.CreateShard database retentionPolicy shardID = (.ok (), s) := by
  simp [Store.CreateShard, hc, hf]

/-- C8: CreateShard is idempotent in the shard id: on an open store whose
registry already holds the id, CreateShard returns success and changes
nothing, for any database and retention-policy arguments; consequently a
second CreateShard call with the same id after a successful first one is
the identity on the store. -/
theorem CreateShard_idempotent :
    (∀ (s : Store) (database retentionPolicy : String) (shardID : Nat),
        s.closingClosed = false → (s.findShard shardID).isSome = true →
        s.CreateShard database retentionPolicy shardID = (.ok (), s))
    ∧ (∀ (s : Store) (db1 rp1 db2 rp2 : String) (shardID : Nat),
        (s.CreateShard db1 rp1 shardID).1 = .ok () →
        (s.CreateShard db1 rp1 shardID).2.CreateShard db2 rp2 shardID =
          (.ok (), (s.CreateShard db1 rp1 shardID).2)) := by
  constructor
  · exact CreateShard_existing_noop
  · intro s db1 rp1 db2 rp2 shardID h
    by_cases hc : s.closingClosed
    · simp [Store.CreateShard, hc] at h
    · by_cases hf : (s.findShard shardID).isSome
      · have hr : s.CreateShard db1 rp1 shardID = (.ok (), s) :=
          CreateShard_existing_noop s db1 rp1 shardID (by simpa using hc) (by simpa using hf)
        rw [hr]
        exact CreateShard_existing_noop s db2 rp2 shardID (by simpa using hc) (by simpa using hf)
      · cases hopen : s.shardOpenErr shardID with
        | some e => simp [Store.CreateShard, hc, hf, hopen] at h
        | none =>
          have hr : s.CreateShard db1 rp1 shardID =
              (.ok (),
                { s with
                  fs := mkdirAll (mkdirAll s.fs (s.path ++ [db1, rp1]))
                          (s.walDir ++ [db1, rp1, toString shardID])
                  databaseIndexes :=
                    match s.lookupIndex db1 with
                    | some _ => s.databaseIndexes
                    | none => s.databaseIndexes ++ [(db1, NewDatabaseIndex db1)]
                  shards := s.shards ++
                    [NewShard shardID db1 rp1
                      (s.path ++ [db1, rp1, toString shardID])
                      (s.walDir ++ [db1, rp1, toString shardID])] }) := by
            simp [Store.CreateShard, hc, hf, hopen]
          rw [hr]
          apply CreateShard_existing_noop
          · simpa using hc
          · exact isSome_find?_append _ s.shards _ (by simp [NewShard])

theorem mem_removeAll {fs : FileSystem} {p q : GoPath} (h : q ∈ removeAll fs p) :
    q ∈ fs ∧ p.isPrefixOf q = false := by
  unfold removeAll at h
  have hmem := List.mem_filter.mp h
  exact ⟨hmem.1, by simpa using hmem.2⟩

theorem lookup_filter_self_none {β : Type} (name : String) :
    ∀ (l : List (String × β)), (l.filter (fun q => q.1 != name)).lookup name = none := by
  intro l
  induction l with
  | nil => rfl
  | cons p rest ih =>
    by_cases hp : p.1 == name
    · rw [List.filter_cons, if_neg (by simp [bne, hp])]
      exact ih
    · rw [List.filter_cons, if_pos (by simp [bne, hp])]
      have hp2 : (p.1 == name) = false := by simpa using hp
      have hne : (name == p.1) = false := by
        rw [beq_eq_false_iff_ne] at hp2 ⊢
        exact fun heq => hp2 heq.symm
      cases p with
      | mk k v =>
        simp only [List.lookup, hne]
        exact ih

theorem deleteShard_ok_fields (s : Store) (id : Nat) (s1 : Store)
    (h : s.deleteShard id = .ok s1) :
    s1.path = s.path ∧ s1.walDir = s.walDir ∧ s1.closingClosed = s.closingClosed
    ∧ s1.databaseIndexes = s.databaseIndexes := by
  unfold Store.deleteShard at h
  cases hf : s.findShard id with
  | none =>
    rw [hf] at h
    cases h
    exact ⟨rfl, rfl, rfl, rfl⟩
  | some sh =>
    rw [hf] at h
    dsimp only at h
    cases hce : sh.closeErr with
    | some e => rw [hce] at h; cases h
    | none =>
      rw [hce] at h
      cases h
      exact ⟨rfl, rfl, rfl, rfl⟩

theorem deleteShard_ok_shards (s : Store) (id : Nat) (s1 : Store)
    (h : s.deleteShard id = .ok s1) :
    (s.findShard id = none ∧ s1 = s)
    ∨ s1.shards = s.shards.filter (fun x => x.id != id) := by
  unfold Store.deleteShard at h
  cases hf : s.findShard id with
  | none =>
    rw [hf] at h
    cases h
    exact .inl ⟨rfl, rfl⟩
  | some sh =>
    rw [hf] at h
    dsimp only at h
    cases hce : sh.closeErr with
    | some e => rw [hce] at h; cases h
    | none =>
      rw [hce] at h
      cases h
      exact .inr rfl

theorem deleteDatabaseShards_fields (name : String) :
    ∀ (l : List Shard) (s s2 : Store) (e : Option GoError),
      deleteDatabaseShards name s l = (e, s2) →
      s2.path = s.path ∧ s2.walDir = s.walDir := by
  intro l
  induction l with
  | nil =>
    intro s s2 e h
    cases h
    exact ⟨rfl, rfl⟩
  | cons sh rest ih =>
    intro s s2 e h
    by_cases hdb : sh.database == name
    · rw [deleteDatabaseShards, if_pos hdb] at h
      cases hds : s.deleteShard sh.id with
      | error err => rw [hds] at h; cases h; exact ⟨rfl, rfl⟩
      | ok s1 =>
        rw [hds] at h
        have hfields := deleteShard_ok_fields s sh.id s1 hds
        have hrest := ih s1 s2 e h
        exact ⟨hrest.1.trans hfields.1, hrest.2.trans hfields.2.1⟩
    · rw [deleteDatabaseShards, if_neg hdb] at h
      exact ih s s2 e h

theorem deleteDatabaseShards_ok_clears (name : String) :
    ∀ (l : List Shard) (s s2 : Store),
      deleteDatabaseShards name s l = (none, s2) →
      (∀ x ∈ s.shards, x.database = name → ∃ y ∈ l, y.id = x.id ∧ y.database = name) →
      ∀ x ∈ s2.shards, x.database ≠ name := by
  intro l
  induction l with
  | nil =>
    intro s s2 h hinv x hx hxname
    cases h
    obtain ⟨y, hy, -, -⟩ := hinv x hx hxname
    exact List.not_mem_nil y hy
  | cons sh rest ih =>
    intro s s2 h hinv
    by_cases hdb : sh.database == name
    · rw [deleteDatabaseShards, if_pos hdb] at h
      cases hds : s.deleteShard sh.id with
      | error err => rw [hds] at h; cases h
      | ok s1 =>
        rw [hds] at h
        refine ih s1 s2 h ?_
        intro x hx hxname
        rcases deleteShard_ok_shards s sh.id s1 hds with ⟨hfnone, rfl⟩ | hfilter
        · obtain ⟨y, hy, hyid, hyname⟩ := hinv x hx hxname
          rcases List.mem_cons.mp hy with rfl | hyrest
          · exfalso
            have hall := List.find?_eq_none.mp hfnone
            have := hall x hx
            simp [hyid] at this
          · exact ⟨y, hyrest, hyid, hyname⟩
        · rw [hfilter] at hx
          have hx2 := List.mem_filter.mp hx
          obtain ⟨y, hy, hyid, hyname⟩ := hinv x hx2.1 hxname
          rcases List.mem_cons.mp hy with rfl | hyrest
          · exfalso
            have : x.id ≠ y.id := by simpa [bne] using hx2.2
            exact this hyid.symm
          · exact ⟨y, hyrest, hyid, hyname⟩
    · rw [deleteDatabaseShards, if_neg hdb] at h
      refine ih s s2 h ?_
      intro x hx hxname
      obtain ⟨y, hy, hyid, hyname⟩ := hinv x hx hxname
      rcases List.mem_cons.mp hy with rfl | hyrest
      · exact absurd hyname (by simpa using hdb)
      · exact ⟨y, hyrest, hyid, hyname⟩

theorem deleteDatabaseShards_no_match (name : String) :
    ∀ (l : List Shard) (s : Store), (∀ sh ∈ l, sh.database ≠ name) →
      deleteDatabaseShards name s l = (none, s) := by
  intro l
  induction l with
  | nil => intro s _; rfl
  | cons sh rest ih =>
    intro s hno
    have hdb : (sh.database == name) = false := by
      simpa using hno sh (List.mem_cons_self sh rest)
    rw [deleteDatabaseShards, if_neg (by simp [hdb])]
    exact ih s (fun x hx => hno x (List.mem_cons_of_mem sh hx))

/-- C9: after DeleteDatabase succeeds, no shard of that database remains in
the registry, the index entry is gone, and nothing remains on disk at or
below the data-root and write-ahead directories of the database; and the
call succeeds whenever no shard belongs to the database. -/
theorem DeleteDatabase_completeness :
    (∀ (s : Store) (name : String) (s1 : Store),
        s.DeleteDatabase name = (.ok (), s1) →
        (∀ sh ∈ s1.shards, sh.database ≠ name)
        ∧ s1.lookupIndex name = none
        ∧ (∀ q ∈ s1.fs, (s.path ++ [name]).isPrefixOf q = false)
        ∧ (∀ q ∈ s1.fs, (s.walDir ++ [name]).isPrefixOf q = false))
    ∧ (∀ (s : Store) (name : String),
        (∀ sh ∈ s.shards, sh.database ≠ name) →
        (s.DeleteDatabase name).1 = .ok ()) := by
  constructor
  · intro s name s1 h
    unfold Store.DeleteDatabase at h
    cases hds : deleteDatabaseShards name s s.shards with
    | mk e s2 =>
      rw [hds] at h
      cases e with
      | some err => cases h
      | none =>
        have hfields := deleteDatabaseShards_fields name s.shards s s2 none hds
        injection h with h1 h2
        subst h2
        refine ⟨?_, ?_, ?_, ?_⟩
        · intro sh hsh
          exact deleteDatabaseShards_ok_clears name s.shards s s2 hds
            (fun x hx hxname => ⟨x, hx, rfl, hxname⟩) sh hsh
        · exact lookup_filter_self_none name s2.databaseIndexes
        · intro q hq
          have hq1 := mem_removeAll hq
          have hq2 := mem_removeAll hq1.1
          rw [hfields.1] at hq2
          exact hq2.2
        · intro q hq
          have hq1 := mem_removeAll hq
          rw [hfields.2] at hq1
          exact hq1.2
  · intro s name hno
    unfold Store.DeleteDatabase
    rw [deleteDatabaseShards_no_match name s.shards s hno]

/-- C9 witness: deleting a database with zero shards succeeds. -/
theorem DeleteDatabase_completeness_witness :
    (∀ sh ∈ emptyShardStore.shards, sh.database ≠ "db0")
    ∧ (emptyShardStore.DeleteDatabase "db0").1 = .ok () :=
  ⟨fun sh hsh => absurd hsh (List.not_mem_nil sh),
    DeleteDatabase_completeness.2 emptyShardStore "db0"
      (fun sh hsh => absurd hsh (List.not_mem_nil sh))⟩

/-- C8 witness: the sample store already holds shard id 1. -/
theorem CreateShard_idempotent_witness :
    sampleStore.closingClosed = false
    ∧ (sampleStore.findShard 1).isSome = true
    ∧ sampleStore.CreateShard "dbZ" "rpZ" 1 = (.ok (), sampleStore) :=
  ⟨rfl, rfl, CreateShard_idempotent.1 sampleStore "dbZ" "rpZ" 1 rfl rfl⟩

theorem escStr_append_inj :
    ∀ (xs ys a b : List Char),
      escStr xs ++ qChar :: a = escStr ys ++ qChar :: b → xs = ys ∧ a = b := by
  intro xs
  induction xs with
  | nil =>
    intro ys a b h
    cases ys with
    | nil =>
      simp only [escStr, List.nil_append, List.cons.injEq, true_and] at h
      exact ⟨rfl, h⟩
    | cons y ys2 =>
      exfalso
      simp only [escStr, List.nil_append, List.append_assoc] at h
      by_cases hy : y = qChar ∨ y = bChar
      · rw [escChar, if_pos hy] at h
        simp only [List.cons_append, List.nil_append, List.cons.injEq] at h
        exact absurd h.1 (by decide)
      · rw [escChar, if_neg hy] at h
        simp only [List.cons_append, List.nil_append, List.cons.injEq] at h
        exact hy (Or.inl h.1.symm)
  | cons x xs2 ih =>
    intro ys a b h
    cases ys with
    | nil =>
      exfalso
      simp only [escStr, List.nil_append, List.append_assoc] at h
      by_cases hx : x = qChar ∨ x = bChar
      · rw [escChar, if_pos hx] at h
        simp only [List.cons_append, List.nil_append, List.cons.injEq] at h
        exact absurd h.1 (by decide)
      · rw [escChar, if_neg hx] at h
        simp only [List.cons_append, List.nil_append, List.cons.injEq] at h
        exact hx (Or.inl h.1)
    | cons y ys2 =>
      simp only [escStr, List.append_assoc] at h
      by_cases hx : x = qChar ∨ x = bChar
      · by_cases hy : y = qChar ∨ y = bChar
        · rw [escChar, if_pos hx, escChar, if_pos hy] at h
          simp only [List.cons_append, List.nil_append, List.cons.injEq, true_and] at h
          obtain ⟨hxy, hrest⟩ := h
          obtain ⟨hxs, hab⟩ := ih ys2 a b hrest
          exact ⟨by rw [hxy, hxs], hab⟩
        · exfalso
          rw [escChar, if_pos hx, escChar, if_neg hy] at h
          simp only [List.cons_append, List.nil_append, List.cons.injEq] at h
          exact hy (Or.inr h.1.symm)
      · by_cases hy : y = qChar ∨ y = bChar
        · exfalso
          rw [escChar, if_neg hx, escChar, if_pos hy] at h
          simp only [List.cons_append, List.nil_append, List.cons.injEq] at h
          exact hx (Or.inr h.1)
        · rw [escChar, if_neg hx, escChar, if_neg hy] at h
          simp only [List.cons_append, List.nil_append, List.cons.injEq] at h
          obtain ⟨hxy, hrest⟩ := h
          obtain ⟨hxs, hab⟩ := ih ys2 a b hrest
          exact ⟨by rw [hxy, hxs], hab⟩

theorem string_eq_of_data {a b : String} (h : a.data = b.data) : a = b := by
  cases a with
  | mk d1 =>
    cases b with
    | mk d2 => exact congrArg String.mk h

theorem mString_inj (m1 m2 : Msmt) (h1 : m1.regex = none) (h2 : m2.regex = none)
    (h : mString m1 = mString m2) : m1 = m2 := by
  have hd : (mString m1).data = (mString m2).data := by rw [h]
  simp only [mString, List.cons.injEq, true_and] at hd
  obtain ⟨hdb, hrest⟩ := escStr_append_inj _ _ _ _ hd
  simp only [List.cons.injEq, true_and] at hrest
  obtain ⟨hrp, hrest2⟩ := escStr_append_inj _ _ _ _ hrest
  simp only [List.cons.injEq, true_and] at hrest2
  have hrest3 : escStr m1.name.data ++ qChar :: [] = escStr m2.name.data ++ qChar :: [] := by
    simpa using hrest2
  obtain ⟨hnm, -⟩ := escStr_append_inj _ _ _ _ hrest3
  obtain ⟨d1, r1, n1, x1⟩ := m1
  obtain ⟨d2, r2, n2, x2⟩ := m2
  simp only at hdb hrp hnm h1 h2
  rw [string_eq_of_data hdb, string_eq_of_data hrp, string_eq_of_data hnm, h1, h2]

theorem setKeys_setInsert (set : List (String × Msmt)) (k : String) (v : Msmt) :
    setKeys (setInsert set k v) =
      if set.any (fun p => p.1 == k) then setKeys set else setKeys set ++ [k] := by
  unfold setInsert setKeys
  by_cases ha : set.any (fun p => p.1 == k)
  · rw [if_pos ha, if_pos ha, List.map_map]
    refine List.map_congr_left ?_
    intro p hp
    by_cases hpk : p.1 == k
    · simp only [Function.comp_apply, if_pos hpk]
      exact (eq_of_beq hpk).symm
    · simp only [Function.comp_apply, if_neg hpk]
  · rw [if_neg ha, if_neg ha, List.map_append]
    rfl

theorem mem_setKeys_setInsert (set : List (String × Msmt)) (k : String) (v : Msmt)
    (k' : String) :
    k' ∈ setKeys (setInsert set k v) ↔ k' = k ∨ k' ∈ setKeys set := by
  rw [setKeys_setInsert]
  by_cases ha : set.any (fun p => p.1 == k)
  · rw [if_pos ha]
    constructor
    · exact Or.inr
    · rintro (rfl | h)
      · obtain ⟨p, hp, hpk⟩ := List.any_eq_true.mp ha
        have hpe : p.1 = k' := eq_of_beq hpk
        exact hpe ▸ List.mem_map_of_mem (fun q => q.1) hp
      · exact h
  · rw [if_neg ha]
    rw [List.mem_append, List.mem_singleton]
    exact or_comm

theorem goodSet_setInsert (set : List (String × Msmt)) (k : String) (v : Msmt)
    (hg : goodSet set) (hv : v.regex = none) (hk : mString v = k) :
    goodSet (setInsert set k v) := by
  constructor
  · intro p hp
    unfold setInsert at hp
    by_cases ha : set.any (fun q => q.1 == k)
    · rw [if_pos ha] at hp
      obtain ⟨q, hq, hfq⟩ := List.mem_map.mp hp
      by_cases hqk : q.1 == k
      · rw [if_pos hqk] at hfq
        rw [← hfq]
        exact ⟨hv, hk⟩
      · rw [if_neg hqk] at hfq
        rw [← hfq]
        exact hg.1 q hq
    · rw [if_neg ha] at hp
      rcases List.mem_append.mp hp with hmem | hmem
      · exact hg.1 p hmem
      · rw [List.mem_singleton] at hmem
        rw [hmem]
        exact ⟨hv, hk⟩
  · rw [setKeys_setInsert]
    by_cases ha : set.any (fun q => q.1 == k)
    · rw [if_pos ha]
      exact hg.2
    · rw [if_neg ha, List.nodup_append]
      refine ⟨hg.2, List.nodup_singleton k, ?_⟩
      intro a hamem hain
      rw [List.mem_singleton] at hain
      subst hain
      obtain ⟨q, hq, hq1⟩ := List.mem_map.mp hamem
      apply ha
      rw [List.any_eq_true]
      exact ⟨q, hq, by simp [hq1]⟩

theorem lookupSet_mem : ∀ (set : List (String × Msmt)) (k : String) (v : Msmt),
    lookupSet set k = some v → (k, v) ∈ set := by
  intro set
  induction set with
  | nil => intro k v h; cases h
  | cons p rest ih =>
    intro k v h
    unfold lookupSet at h
    by_cases hp : p.1 == k
    · rw [if_pos hp] at h
      have hk := eq_of_beq hp
      injection h with hv
      rw [List.mem_cons]
      left
      rw [← hk, ← hv]
    · rw [if_neg hp] at h
      exact List.mem_cons_of_mem p (ih k v h)

theorem lookupSet_isSome : ∀ (set : List (String × Msmt)) (k : String),
    k ∈ setKeys set → (lookupSet set k).isSome = true := by
  intro set
  induction set with
  | nil => intro k h; simp [setKeys] at h
  | cons p rest ih =>
    intro k h
    unfold lookupSet
    by_cases hp : p.1 == k
    · rw [if_pos hp]
      rfl
    · rw [if_neg hp]
      apply ih
      simp only [setKeys, List.map_cons, List.mem_cons] at h
      rcases h with h | h
      · exact absurd (by simp [h]) hp
      · exact h

theorem mem_sourcesKeys (s : Store) (l : List Source) (k : String) :
    k ∈ sourcesKeys s l ↔ ∃ src ∈ l, k ∈ srcKeys s src := by
  unfold sourcesKeys
  rw [List.mem_flatten]
  constructor
  · rintro ⟨ks, hks, hk⟩
    obtain ⟨src, hsrc, rfl⟩ := List.mem_map.mp hks
    exact ⟨src, hsrc, hk⟩
  · rintro ⟨src, hsrc, hk⟩
    exact ⟨srcKeys s src, List.mem_map_of_mem _ hsrc, hk⟩

theorem insertMatches_props (dbn rpn : String) :
    ∀ (ms : List Measurement) (set : List (String × Msmt)), goodSet set →
      goodSet (insertMatches dbn rpn ms set)
      ∧ (∀ k, k ∈ setKeys (insertMatches dbn rpn ms set) ↔
          (∃ mm ∈ ms, k = mString ⟨dbn, rpn, mm.name, none⟩) ∨ k ∈ setKeys set) := by
  intro ms
  induction ms with
  | nil =>
    intro set hg
    refine ⟨hg, fun k => ?_⟩
    simp [insertMatches]
  | cons mm rest ih =>
    intro set hg
    have hg1 : goodSet (setInsert set (mString ⟨dbn, rpn, mm.name, none⟩)
        ⟨dbn, rpn, mm.name, none⟩) :=
      goodSet_setInsert _ _ _ hg rfl rfl
    have hstep : insertMatches dbn rpn (mm :: rest) set =
        insertMatches dbn rpn rest (setInsert set (mString ⟨dbn, rpn, mm.name, none⟩)
          ⟨dbn, rpn, mm.name, none⟩) := rfl
    have hrec := ih _ hg1
    refine ⟨hstep ▸ hrec.1, fun k => ?_⟩
    rw [hstep, hrec.2 k, mem_setKeys_setInsert]
    constructor
    · rintro (⟨x, hx, hkx⟩ | rfl | hmem)
      · exact Or.inl ⟨x, List.mem_cons_of_mem mm hx, hkx⟩
      · exact Or.inl ⟨mm, List.mem_cons_self mm rest, rfl⟩
      · exact Or.inr hmem
    · rintro (⟨x, hx, hkx⟩ | hmem)
      · rcases List.mem_cons.mp hx with rfl | hx2
        · exact Or.inr (Or.inl hkx)
        · exact Or.inl ⟨x, hx2, hkx⟩
      · exact Or.inr (Or.inr hmem)

theorem expandLoop_emptyEarly (s : Store) :
    ∀ (l : List Source) (set : List (String × Msmt)),
      expandLoop s l set = .emptyEarly → hasUnknownRegex s l := by
  intro l
  induction l with
  | nil => intro set h; exact ExpandOutcome.noConfusion h
  | cons src rest ih =>
    intro set h
    cases src with
    | other t =>
      simp only [expandLoop] at h
      exact ExpandOutcome.noConfusion h
    | meas m =>
      simp only [expandLoop] at h
      cases hreg : m.regex with
      | none =>
        rw [hreg] at h
        dsimp only at h
        obtain ⟨m2, r2, hmem, hr2, hdb2⟩ := ih _ h
        exact ⟨m2, r2, List.mem_cons_of_mem _ hmem, hr2, hdb2⟩
      | some r =>
        rw [hreg] at h
        dsimp only at h
        cases hdb : s.lookupIndex m.database with
        | none => exact ⟨m, r, List.mem_cons_self _ _, hreg, hdb⟩
        | some db =>
          rw [hdb] at h
          dsimp only at h
          obtain ⟨m2, r2, hmem, hr2, hdb2⟩ := ih _ h
          exact ⟨m2, r2, List.mem_cons_of_mem _ hmem, hr2, hdb2⟩

theorem expandLoop_of_unknown (s : Store) :
    ∀ (l : List Source) (set : List (String × Msmt)),
      (∀ src ∈ l, src.isMeas = true) → hasUnknownRegex s l →
      expandLoop s l set = .emptyEarly := by
  intro l
  induction l with
  | nil =>
    intro set _ hu
    obtain ⟨m, r, hmem, -, -⟩ := hu
    exact absurd hmem (List.not_mem_nil _)
  | cons src rest ih =>
    intro set hall hu
    cases src with
    | other t =>
      have := hall (.other t) (List.mem_cons_self _ _)
      simp [Source.isMeas] at this
    | meas m =>
      simp only [expandLoop]
      cases hreg : m.regex with
      | none =>
        dsimp only
        apply ih
        · intro x hx
          exact hall x (List.mem_cons_of_mem _ hx)
        · obtain ⟨m2, r2, hmem, hr2, hdb2⟩ := hu
          rcases List.mem_cons.mp hmem with heq | hmem2
          · exfalso
            injection heq with heq2
            rw [heq2, hreg] at hr2
            cases hr2
          · exact ⟨m2, r2, hmem2, hr2, hdb2⟩
      | some r =>
        dsimp only
        cases hdb : s.lookupIndex m.database with
        | none => rfl
        | some db =>
          dsimp only
          apply ih
          · intro x hx
            exact hall x (List.mem_cons_of_mem _ hx)
          · obtain ⟨m2, r2, hmem, hr2, hdb2⟩ := hu
            rcases List.mem_cons.mp hmem with heq | hmem2
            · exfalso
              injection heq with heq2
              rw [heq2] at hdb2
              rw [hdb2] at hdb
              cases hdb
            · exact ⟨m2, r2, hmem2, hr2, hdb2⟩

theorem expandLoop_no_err (s : Store) :
    ∀ (l : List Source) (set : List (String × Msmt)) (e : GoError),
      (∀ src ∈ l, src.isMeas = true) → expandLoop s l set ≠ .err e := by
  intro l
  induction l with
  | nil => intro set e _ h; exact ExpandOutcome.noConfusion h
  | cons src rest ih =>
    intro set e hall h
    cases src with
    | other t =>
      have := hall (.other t) (List.mem_cons_self _ _)
      simp [Source.isMeas] at this
    | meas m =>
      simp only [expandLoop] at h
      have hall2 : ∀ x ∈ rest, x.isMeas = true :=
        fun x hx => hall x (List.mem_cons_of_mem _ hx)
      cases hreg : m.regex with
      | none =>
        rw [hreg] at h
        dsimp only at h
        exact ih _ e hall2 h
      | some r =>
        rw [hreg] at h
        dsimp only at h
        cases hdb : s.lookupIndex m.database with
        | none =>
          rw [hdb] at h
          exact ExpandOutcome.noConfusion h
        | some db =>
          rw [hdb] at h
          dsimp only at h
          exact ih _ e hall2 h

theorem expandLoop_done (s : Store) :
    ∀ (l : List Source) (set set2 : List (String × Msmt)),
      expandLoop s l set = .done set2 → goodSet set →
      goodSet set2
      ∧ (∀ k, k ∈ setKeys set2 ↔ (k ∈ sourcesKeys s l ∨ k ∈ setKeys set))
      ∧ (∀ src ∈ l, src.isMeas = true) := by
  intro l
  induction l with
  | nil =>
    intro set set2 h hg
    injection h with h2
    subst h2
    refine ⟨hg, fun k => ?_, fun src hsrc => absurd hsrc (List.not_mem_nil src)⟩
    simp [sourcesKeys]
  | cons src rest ih =>
    intro set set2 h hg
    cases src with
    | other t =>
      simp only [expandLoop] at h
      exact ExpandOutcome.noConfusion h
    | meas m =>
      simp only [expandLoop] at h
      cases hreg : m.regex with
      | none =>
        rw [hreg] at h
        dsimp only at h
        have hg1 : goodSet (setInsert set (mString m) m) := by
          apply goodSet_setInsert _ _ _ hg hreg rfl
        obtain ⟨hgood, hkeys, hall⟩ := ih _ _ h hg1
        refine ⟨hgood, fun k => ?_, ?_⟩
        · rw [hkeys k, mem_setKeys_setInsert]
          have hsrckeys : k ∈ sourcesKeys s (Source.meas m :: rest) ↔
              k = mString m ∨ k ∈ sourcesKeys s rest := by
            rw [mem_sourcesKeys]
            constructor
            · rintro ⟨x, hx, hkx⟩
              rcases List.mem_cons.mp hx with rfl | hx2
              · left
                simp only [srcKeys, hreg, List.mem_singleton] at hkx
                exact hkx
              · right
                rw [mem_sourcesKeys]
                exact ⟨x, hx2, hkx⟩
            · rintro (rfl | hmem)
              · exact ⟨Source.meas m, List.mem_cons_self _ _,
                  by simp [srcKeys, hreg]⟩
              · obtain ⟨x, hx, hkx⟩ := (mem_sourcesKeys s rest k).mp hmem
                exact ⟨x, List.mem_cons_of_mem _ hx, hkx⟩
          rw [hsrckeys]
          tauto
        · intro x hx
          rcases List.mem_cons.mp hx with rfl | hx2
          · rfl
          · exact hall x hx2
      | some r =>
        rw [hreg] at h
        dsimp only at h
        cases hdb : s.lookupIndex m.database with
        | none =>
          rw [hdb] at h
          exact ExpandOutcome.noConfusion h
        | some db =>
          rw [hdb] at h
          dsimp only at h
          have him := insertMatches_props m.database m.retentionPolicy
            (db.measurementsByRegex r) set hg
          obtain ⟨hgood, hkeys, hall⟩ := ih _ _ h him.1
          refine ⟨hgood, fun k => ?_, ?_⟩
          · rw [hkeys k, him.2 k]
            have hsrckeys : k ∈ sourcesKeys s (Source.meas m :: rest) ↔
                (∃ mm ∈ db.measurementsByRegex r,
                  k = mString ⟨m.database, m.retentionPolicy, mm.name, none⟩)
                ∨ k ∈ sourcesKeys s rest := by
              rw [mem_sourcesKeys]
              constructor
              · rintro ⟨x, hx, hkx⟩
                rcases List.mem_cons.mp hx with rfl | hx2
                · left
                  simp only [srcKeys, hreg, hdb] at hkx
                  obtain ⟨mm, hmm, hkmm⟩ := List.mem_map.mp hkx
                  exact ⟨mm, hmm, hkmm.symm⟩
                · right
                  rw [mem_sourcesKeys]
                  exact ⟨x, hx2, hkx⟩
              · rintro (⟨mm, hmm, hkmm⟩ | hmem)
                · refine ⟨Source.meas m, List.mem_cons_self _ _, ?_⟩
                  simp only [srcKeys, hreg, hdb]
                  exact List.mem_map.mpr ⟨mm, hmm, hkmm.symm⟩
                · obtain ⟨x, hx, hkx⟩ := (mem_sourcesKeys s rest k).mp hmem
                  exact ⟨x, List.mem_cons_of_mem _ hx, hkx⟩
            rw [hsrckeys]
            constructor
            · rintro (hq | he | hs)
              · exact Or.inl (Or.inr hq)
              · exact Or.inl (Or.inl he)
              · exact Or.inr hs
            · rintro ((he | hq) | hs)
              · exact Or.inr (Or.inl he)
              · exact Or.inl hq
              · exact Or.inr (Or.inr hs)
          · intro x hx
            rcases List.mem_cons.mp hx with rfl | hx2
            · rfl
            · exact hall x hx2

theorem goodSet_nil : goodSet ([] : List (String × Msmt)) :=
  ⟨fun p hp => absurd hp (List.not_mem_nil p), by simp [setKeys]⟩

theorem filterMapCongrLocal {α β : Type} :
    ∀ (l : List α) (f g : α → Option β), (∀ a ∈ l, f a = g a) →
      l.filterMap f = l.filterMap g := by
  intro l
  induction l with
  | nil => intro f g _; rfl
  | cons a rest ih =>
    intro f g h
    rw [List.filterMap_cons, List.filterMap_cons, h a (List.mem_cons_self a rest),
      ih f g (fun x hx => h x (List.mem_cons_of_mem a hx))]

theorem expandSources_eq_of_equiv (s : Store) (l1 l2 : List Source)
    (h1 : ∀ src ∈ l1, src.isMeas = true) (h2 : ∀ src ∈ l2, src.isMeas = true)
    (hkeys : ∀ k, k ∈ sourcesKeys s l1 ↔ k ∈ sourcesKeys s l2)
    (hunk : hasUnknownRegex s l1 ↔ hasUnknownRegex s l2) :
    s.expandSources l1 = s.expandSources l2 := by
  cases ho1 : expandLoop s l1 [] with
  | err e => exact absurd ho1 (expandLoop_no_err s l1 [] e h1)
  | emptyEarly =>
    have hu2 := hunk.mp (expandLoop_emptyEarly s l1 [] ho1)
    have ho2 := expandLoop_of_unknown s l2 [] h2 hu2
    simp [Store.expandSources, ho1, ho2]
  | done set1 =>
    have hnu1 : ¬ hasUnknownRegex s l1 := by
      intro hu
      rw [expandLoop_of_unknown s l1 [] h1 hu] at ho1
      exact ExpandOutcome.noConfusion ho1
    cases ho2 : expandLoop s l2 [] with
    | err e => exact absurd ho2 (expandLoop_no_err s l2 [] e h2)
    | emptyEarly =>
      exact absurd (hunk.mpr (expandLoop_emptyEarly s l2 [] ho2)) hnu1
    | done set2 =>
      obtain ⟨hg1, hk1, -⟩ := expandLoop_done s l1 [] set1 ho1 goodSet_nil
      obtain ⟨hg2, hk2, -⟩ := expandLoop_done s l2 [] set2 ho2 goodSet_nil
      have hnil : setKeys ([] : List (String × Msmt)) = [] := rfl
      have hmemeq : ∀ k, k ∈ setKeys set1 ↔ k ∈ setKeys set2 := by
        intro k
        rw [hk1 k, hk2 k, hnil]
        simpa using hkeys k
      have hperm : (setKeys set1).Perm (setKeys set2) :=
        (List.perm_ext_iff_of_nodup hg1.2 hg2.2).mpr hmemeq
      have hs1 : List.Sorted strLe ((setKeys set1).insertionSort strLe) :=
        List.sorted_insertionSort strLe _
      have hs2 : List.Sorted strLe ((setKeys set2).insertionSort strLe) :=
        List.sorted_insertionSort strLe _
      have hpp : ((setKeys set1).insertionSort strLe).Perm
          ((setKeys set2).insertionSort strLe) :=
        (List.perm_insertionSort strLe _).trans
          (hperm.trans (List.perm_insertionSort strLe _).symm)
      have hnames := List.eq_of_perm_of_sorted hpp hs1 hs2
      simp only [Store.expandSources, ho1, ho2]
      rw [hnames]
      congr 1
      apply filterMapCongrLocal
      intro n hn
      have hn2 : n ∈ setKeys set2 := (List.perm_insertionSort strLe _).mem_iff.mp hn
      have hn1 : n ∈ setKeys set1 := (hmemeq n).mpr hn2
      obtain ⟨v1, hv1⟩ := Option.isSome_iff_exists.mp (lookupSet_isSome set1 n hn1)
      obtain ⟨v2, hv2⟩ := Option.isSome_iff_exists.mp (lookupSet_isSome set2 n hn2)
      have hp1 := hg1.1 _ (lookupSet_mem set1 n v1 hv1)
      have hp2 := hg2.1 _ (lookupSet_mem set2 n v2 hv2)
      have hv12 : v1 = v2 := mString_inj v1 v2 hp1.1 hp2.1 (hp1.2.trans hp2.2.symm)
      rw [hv1, hv2, hv12]

theorem filterMap_lookup_mString (set : List (String × Msmt)) (hg : goodSet set) :
    ∀ names : List String, (∀ n ∈ names, n ∈ setKeys set) →
      (names.filterMap (lookupSet set)).map mString = names := by
  intro names
  induction names with
  | nil => intro _; rfl
  | cons n ns ih =>
    intro h
    obtain ⟨v, hv⟩ := Option.isSome_iff_exists.mp
      (lookupSet_isSome set n (h n (List.mem_cons_self n ns)))
    rw [List.filterMap_cons, hv]
    dsimp only
    rw [List.map_cons, (hg.1 _ (lookupSet_mem set n v hv)).2,
      ih (fun x hx => h x (List.mem_cons_of_mem n hx))]

theorem expandSources_ok_shape (s : Store) (l : List Source) (out : List Source)
    (h : s.expandSources l = .ok out) :
    ∃ ms : List Msmt, out = ms.map Source.meas
      ∧ (∀ m ∈ ms, m.regex = none)
      ∧ List.Pairwise (fun a b => strLe a b ∧ a ≠ b) (ms.map mString) := by
  cases ho : expandLoop s l [] with
  | err e => simp [Store.expandSources, ho] at h
  | emptyEarly =>
    simp only [Store.expandSources, ho, Except.ok.injEq] at h
    exact ⟨[], by simp [← h], by simp, by simp⟩
  | done set =>
    obtain ⟨hg, -, -⟩ := expandLoop_done s l [] set ho goodSet_nil
    simp only [Store.expandSources, ho, Except.ok.injEq] at h
    refine ⟨((setKeys set).insertionSort strLe).filterMap (lookupSet set), ?_, ?_, ?_⟩
    · rw [← h, List.map_filterMap]
    · intro m hm
      obtain ⟨n, -, hlk⟩ := List.mem_filterMap.mp hm
      exact (hg.1 _ (lookupSet_mem set n m hlk)).1
    · have hmem : ∀ n ∈ (setKeys set).insertionSort strLe, n ∈ setKeys set :=
        fun n hn => (List.perm_insertionSort strLe _).mem_iff.mp hn
      rw [filterMap_lookup_mString set hg _ hmem]
      have hsorted : List.Pairwise strLe ((setKeys set).insertionSort strLe) :=
        List.sorted_insertionSort strLe (setKeys set)
      have hnodup : ((setKeys set).insertionSort strLe).Nodup :=
        ((List.perm_insertionSort strLe _).nodup_iff).mpr hg.2
      exact hsorted.and hnodup

theorem expandSources_idem (s : Store) (l out : List Source)
    (h : s.expandSources l = .ok out) : s.expandSources out = .ok out := by
  cases ho : expandLoop s l [] with
  | err e => simp [Store.expandSources, ho] at h
  | emptyEarly =>
    simp only [Store.expandSources, ho, Except.ok.injEq] at h
    subst h
    rfl
  | done set =>
    obtain ⟨hg, hkeys, hall⟩ := expandLoop_done s l [] set ho goodSet_nil
    simp only [Store.expandSources, ho, Except.ok.injEq] at h
    have hnu : ¬ hasUnknownRegex s l := by
      intro hu
      rw [expandLoop_of_unknown s l [] hall hu] at ho
      exact ExpandOutcome.noConfusion ho
    have houtlit : ∀ src ∈ out, ∃ v : Msmt, src = Source.meas v ∧ v.regex = none
        ∧ mString v ∈ setKeys set := by
      intro src hsrc
      rw [← h] at hsrc
      obtain ⟨n, hn, hlk⟩ := List.mem_filterMap.mp hsrc
      cases hv : lookupSet set n with
      | none => rw [hv] at hlk; cases hlk
      | some v =>
        rw [hv] at hlk
        injection hlk with hlk2
        have hp := hg.1 _ (lookupSet_mem set n v hv)
        refine ⟨v, hlk2.symm, hp.1, ?_⟩
        rw [hp.2]
        exact (List.perm_insertionSort strLe _).mem_iff.mp hn
    have houtmeas : ∀ src ∈ out, src.isMeas = true := by
      intro src hsrc
      obtain ⟨v, rfl, -, -⟩ := houtlit src hsrc
      rfl
    have hunk2 : hasUnknownRegex s out ↔ hasUnknownRegex s l := by
      constructor
      · rintro ⟨m, r, hmem, hr, -⟩
        obtain ⟨v, heq, hvr, -⟩ := houtlit _ hmem
        injection heq with heq2
        rw [heq2, hvr] at hr
        cases hr
      · intro hu
        exact absurd hu hnu
    have hkeys2 : ∀ k, k ∈ sourcesKeys s out ↔ k ∈ sourcesKeys s l := by
      intro k
      have hk := hkeys k
      rw [show setKeys ([] : List (String × Msmt)) = [] from rfl] at hk
      simp only [List.not_mem_nil, or_false] at hk
      rw [mem_sourcesKeys]
      constructor
      · rintro ⟨src, hsrc, hksrc⟩
        obtain ⟨v, rfl, hvr, hvk⟩ := houtlit _ hsrc
        simp only [srcKeys, hvr, List.mem_singleton] at hksrc
        subst hksrc
        exact hk.mp hvk
      · intro hmem
        have hks : k ∈ setKeys set := hk.mpr hmem
        have hkn : k ∈ (setKeys set).insertionSort strLe :=
          (List.perm_insertionSort strLe _).mem_iff.mpr hks
        obtain ⟨v, hv⟩ := Option.isSome_iff_exists.mp (lookupSet_isSome set k hks)
        have hp := hg.1 _ (lookupSet_mem set k v hv)
        have hp1 : v.regex = none := hp.1
        have hp2 : mString v = k := hp.2
        refine ⟨Source.meas v, ?_, ?_⟩
        · rw [← h]
          exact List.mem_filterMap.mpr ⟨k, hkn, by rw [hv]; rfl⟩
        · simp only [srcKeys, hp1, List.mem_singleton]
          exact hp2.symm
    have heq := expandSources_eq_of_equiv s out l houtmeas hall hkeys2 hunk2
    rw [heq]
    simp only [Store.expandSources, ho]
    exact congrArg Except.ok h

/-- C3: expandSources returns a deduplicated list of literal measurement
references sorted lexicographically by canonical string form; on
measurement-reference source lists the result is invariant under
permutation of the input; re-expanding an expansion returns it unchanged;
and on an index holding cpu, cpu_load and mem with the single pattern
cpu.*, the result is cpu then cpu_load in that order. -/
theorem expandSources_sorted_dedup_deterministic :
    (∀ (s : Store) (l1 l2 : List Source),
        (∀ src ∈ l1, src.isMeas = true) → l1.Perm l2 →
        s.expandSources l1 = s.expandSources l2)
    ∧ (∀ (s : Store) (l out : List Source),
        s.expandSources l = .ok out →
        ∃ ms : List Msmt, out = ms.map Source.meas
          ∧ (∀ m ∈ ms, m.regex = none)
          ∧ List.Pairwise (fun a b => strLe a b ∧ a ≠ b) (ms.map mString))
    ∧ (∀ (s : Store) (l out : List Source),
        s.expandSources l = .ok out → s.expandSources out = .ok out)
    ∧ c3Store.expandSources [c3Src] =
        .ok [.meas ⟨"db0", "rp0", "cpu", none⟩, .meas ⟨"db0", "rp0", "cpu_load", none⟩] := by
  refine ⟨?_, expandSources_ok_shape, expandSources_idem, ?_⟩
  · intro s l1 l2 hall hperm
    apply expandSources_eq_of_equiv s l1 l2 hall
      (fun src hsrc => hall src (hperm.mem_iff.mpr hsrc))
    · intro k
      rw [mem_sourcesKeys, mem_sourcesKeys]
      constructor
      · rintro ⟨src, hsrc, hk⟩
        exact ⟨src, hperm.mem_iff.mp hsrc, hk⟩
      · rintro ⟨src, hsrc, hk⟩
        exact ⟨src, hperm.mem_iff.mpr hsrc, hk⟩
    · unfold hasUnknownRegex
      constructor
      · rintro ⟨m, r, hmem, hr, hdb⟩
        exact ⟨m, r, hperm.mem_iff.mp hmem, hr, hdb⟩
      · rintro ⟨m, r, hmem, hr, hdb⟩
        exact ⟨m, r, hperm.mem_iff.mpr hmem, hr, hdb⟩
  · rfl

/-- C3 witness: the permutation and idempotence parts applied to the
concrete example store and sources. -/
theorem expandSources_sorted_dedup_deterministic_witness :
    (∀ src ∈ [Source.meas ⟨"db0", "rp0", "cpu", none⟩, c3Src], src.isMeas = true)
    ∧ List.Perm [Source.meas ⟨"db0", "rp0", "cpu", none⟩, c3Src]
        [c3Src, Source.meas ⟨"db0", "rp0", "cpu", none⟩]
    ∧ c3Store.expandSources [Source.meas ⟨"db0", "rp0", "cpu", none⟩, c3Src] =
        c3Store.expandSources [c3Src, Source.meas ⟨"db0", "rp0", "cpu", none⟩]
    ∧ c3Store.expandSources
        [.meas ⟨"db0", "rp0", "cpu", none⟩, .meas ⟨"db0", "rp0", "cpu_load", none⟩] =
        .ok [.meas ⟨"db0", "rp0", "cpu", none⟩, .meas ⟨"db0", "rp0", "cpu_load", none⟩] := by
  have hall : ∀ src ∈ [Source.meas ⟨"db0", "rp0", "cpu", none⟩, c3Src], src.isMeas = true := by
    intro src hsrc
    rcases List.mem_cons.mp hsrc with rfl | hsrc2
    · rfl
    · rcases List.mem_cons.mp hsrc2 with rfl | hsrc3
      · rfl
      · exact absurd hsrc3 (List.not_mem_nil src)
  have hperm : List.Perm [Source.meas ⟨"db0", "rp0", "cpu", none⟩, c3Src]
      [c3Src, Source.meas ⟨"db0", "rp0", "cpu", none⟩] :=
    List.Perm.swap c3Src (Source.meas ⟨"db0", "rp0", "cpu", none⟩) []
  refine ⟨hall, hperm, ?_, ?_⟩
  · exact expandSources_sorted_dedup_deterministic.1 c3Store _ _ hall hperm
  · exact expandSources_sorted_dedup_deterministic.2.2.1 c3Store [c3Src] _
      expandSources_sorted_dedup_deterministic.2.2.2

theorem deleteSeriesLoop_trace (database : String) (keys : List String) :
    ∀ (shards : List Shard), ∀ ev ∈ (deleteSeriesLoop database keys shards).trace,
      ∃ i, ev = Event.engineDeleteSeries i keys := by
  intro shards
  induction shards with
  | nil => intro ev hev; exact absurd hev (List.not_mem_nil ev)
  | cons sh rest ih =>
    intro ev hev
    by_cases hdb : (sh.database == database)
    · rw [deleteSeriesLoop, if_pos hdb] at hev
      cases he : sh.deleteSeriesErr with
      | some e =>
        rw [he] at hev
        rcases List.mem_singleton.mp hev with rfl
        exact ⟨sh.id, rfl⟩
      | none =>
        rw [he] at hev
        dsimp only at hev
        rcases List.mem_cons.mp hev with rfl | hev2
        · exact ⟨sh.id, rfl⟩
        · exact ih ev hev2
    · rw [deleteSeriesLoop, if_neg hdb] at hev
      exact ih ev hev

theorem deleteSeriesLoop_ok (database : String) (keys : List String) :
    ∀ (shards : List Shard), (deleteSeriesLoop database keys shards).err = none →
      (deleteSeriesLoop database keys shards).shards =
        shards.map (fun x => if x.database == database then x.removeSeriesKeys keys else x)
      ∧ ∀ sh ∈ shards, sh.database = database →
          Event.engineDeleteSeries sh.id keys ∈ (deleteSeriesLoop database keys shards).trace := by
  intro shards
  induction shards with
  | nil =>
    intro _
    exact ⟨rfl, fun sh hsh => absurd hsh (List.not_mem_nil sh)⟩
  | cons sh rest ih =>
    intro herr
    by_cases hdb : (sh.database == database)
    · rw [deleteSeriesLoop, if_pos hdb] at herr ⊢
      cases he : sh.deleteSeriesErr with
      | some e =>
        try simp only [he] at herr
        try dsimp only at herr
        exact Option.noConfusion herr
      | none =>
        try simp only [he] at herr
        try simp only [he]
        try dsimp only at herr
        try dsimp only
        obtain ⟨hsh, htr⟩ := ih herr
        constructor
        · rw [List.map_cons, if_pos hdb, hsh]
        · intro x hx hxdb
          rcases List.mem_cons.mp hx with rfl | hx2
          · exact List.mem_cons_self _ _
          · exact List.mem_cons_of_mem _ (htr x hx2 hxdb)
    · rw [deleteSeriesLoop, if_neg hdb] at herr ⊢
      dsimp only at herr ⊢
      obtain ⟨hsh, htr⟩ := ih herr
      constructor
      · rw [List.map_cons, if_neg hdb, hsh]
      · intro x hx hxdb
        rcases List.mem_cons.mp hx with rfl | hx2
        · exact absurd hxdb (by simpa using hdb)
        · exact htr x hx2 hxdb

theorem deleteSeriesLoop_err (database : String) (keys : List String) :
    ∀ (shards : List Shard) (e : GoError),
      (deleteSeriesLoop database keys shards).err = some e →
      (deleteSeriesLoop database keys shards).trace ≠ []
      ∧ ∃ pre bad post, shards = pre ++ bad :: post
          ∧ bad.database = database
          ∧ bad.deleteSeriesErr = some e
          ∧ (∀ x ∈ pre, x.database = database → x.deleteSeriesErr = none)
          ∧ (deleteSeriesLoop database keys shards).shards =
              pre.map (fun x => if x.database == database then x.removeSeriesKeys keys else x)
                ++ bad :: post := by
  intro shards
  induction shards with
  | nil => intro e herr; cases herr
  | cons sh rest ih =>
    intro e herr
    by_cases hdb : (sh.database == database)
    · rw [deleteSeriesLoop, if_pos hdb] at herr ⊢
      cases he : sh.deleteSeriesErr with
      | some e0 =>
        try simp only [he] at herr
        try simp only [he]
        try dsimp only at herr
        try dsimp only
        injection herr with herr2
        subst herr2
        refine ⟨by simp, [], sh, rest, rfl, eq_of_beq hdb, he,
          fun x hx => absurd hx (List.not_mem_nil x), ?_⟩
        simp
      | none =>
        try simp only [he] at herr
        try simp only [he]
        try dsimp only at herr
        try dsimp only
        obtain ⟨hne, pre, bad, post, hsplit, hbdb, hberr, hpre, hshards⟩ := ih e herr
        refine ⟨by simp, sh :: pre, bad, post, by rw [hsplit, List.cons_append],
          hbdb, hberr, ?_, ?_⟩
        · intro x hx hxdb
          rcases List.mem_cons.mp hx with rfl | hx2
          · exact he
          · exact hpre x hx2 hxdb
        · rw [List.map_cons, if_pos hdb, hshards, List.cons_append]
    · rw [deleteSeriesLoop, if_neg hdb] at herr ⊢
      dsimp only at herr ⊢
      obtain ⟨hne, pre, bad, post, hsplit, hbdb, hberr, hpre, hshards⟩ := ih e herr
      refine ⟨hne, sh :: pre, bad, post, by rw [hsplit, List.cons_append],
        hbdb, hberr, ?_, ?_⟩
      · intro x hx hxdb
        rcases List.mem_cons.mp hx with rfl | hx2
        · exact absurd hxdb (by simpa using hdb)
        · exact hpre x hx2 hxdb
      · rw [List.map_cons, if_neg hdb, hshards, List.cons_append]

/-- C4: an unknown database is a no-op, not an error, on these two paths:
expandSources of a measurement-reference list containing a regex scoped to
the unknown database returns the empty result with no error, and
DeleteSeries on the unknown database returns success, leaves the store
untouched and performs no engine or index deletion. -/
theorem unknownDatabase_noop_expandSources_DeleteSeries :
    (∀ (s : Store) (l : List Source) (m : Msmt) (r : Regex),
        (∀ src ∈ l, src.isMeas = true) →
        Source.meas m ∈ l → m.regex = some r → s.lookupIndex m.database = none →
        s.expandSources l = .ok [])
    ∧ (∀ (s : Store) (database : String) (sources : List Source)
          (condition : Option Cond),
        s.lookupIndex database = none →
        s.DeleteSeries database sources condition = ⟨.ok (), s, []⟩) := by
  constructor
  · intro s l m r hall hmem hreg hdb
    have hloop := expandLoop_of_unknown s l [] hall ⟨m, r, hmem, hreg, hdb⟩
    simp [Store.expandSources, hloop]
  · intro s database sources condition h
    simp [Store.DeleteSeries, h]

/-- C4 witness: the sample store has no database named dbX. -/
theorem unknownDatabase_noop_expandSources_DeleteSeries_witness :
    (∀ src ∈ [c4Regex], src.isMeas = true)
    ∧ sampleStore.lookupIndex "dbX" = none
    ∧ sampleStore.expandSources [c4Regex] = .ok []
    ∧ sampleStore.DeleteSeries "dbX" [] none = ⟨.ok (), sampleStore, []⟩ := by
  have hall : ∀ src ∈ [c4Regex], src.isMeas = true := by
    intro src hsrc
    rcases List.mem_singleton.mp hsrc with rfl
    rfl
  refine ⟨hall, rfl, ?_, ?_⟩
  · exact unknownDatabase_noop_expandSources_DeleteSeries.1 sampleStore [c4Regex]
      ⟨"dbX", "rp0", "", some cpuStarRegex⟩ cpuStarRegex hall
      (List.mem_singleton.mpr rfl) rfl rfl
  · exact unknownDatabase_noop_expandSources_DeleteSeries.2 sampleStore "dbX" [] none rfl

/-- C1: on an existing database, DeleteSeries deletes one key set from the
shards of the database at the engine level before dropping it from the
Database Index: every emitted event uses that key set; the trace is the
engine deletions followed by the index drops; when the call succeeds with
the index drop present, every shard of the database received the engine
deletion; and when a shard engine deletion fails, the call returns the
error of that shard, the index drop never happens, and the deletions
already applied to the shards before the failing one are kept, not rolled
back. -/
theorem DeleteSeries_shardDeletes_before_indexDrop :
    ∀ (s : Store) (database : String) (sources : List Source)
      (condition : Option Cond) (o : DSOut),
      (s.lookupIndex database).isSome = true →
      s.DeleteSeries database sources condition = o →
      ∃ keys : List String,
        (∀ ev ∈ o.trace, (∃ i, ev = Event.engineDeleteSeries i keys)
          ∨ ev = Event.indexDropSeries database keys)
        ∧ (∃ tr1 tr2, o.trace = tr1 ++ tr2
            ∧ (∀ ev ∈ tr1, ev.isEngineDel = true)
            ∧ (∀ ev ∈ tr2, ev.isIndexDrop = true))
        ∧ (o.res = .ok () → Event.indexDropSeries database keys ∈ o.trace →
            ∀ sh ∈ s.shards, sh.database = database →
              Event.engineDeleteSeries sh.id keys ∈ o.trace)
        ∧ (∀ e, o.res = .error e →
            (∀ ev ∈ o.trace, ev.isIndexDrop = false)
            ∧ (o.trace ≠ [] →
                ∃ pre bad post,
                  s.shards = pre ++ bad :: post
                  ∧ bad.database = database
                  ∧ bad.deleteSeriesErr = some e
                  ∧ (∀ x ∈ pre, x.database = database → x.deleteSeriesErr = none)
                  ∧ o.store.shards = pre.map (fun x =>
                      if x.database == database then x.removeSeriesKeys keys else x)
                      ++ bad :: post)) := by
  intro s database sources condition o hdbsome ho
  cases hlk : s.lookupIndex database with
  | none =>
    rw [hlk] at hdbsome
    exact absurd hdbsome (by simp)
  | some db =>
    simp only [Store.DeleteSeries] at ho
    try rw [hlk] at ho
    try dsimp only at ho
    cases hexp : s.expandSources sources with
    | error e =>
      try rw [hexp] at ho
      try dsimp only at ho
      subst ho
      refine ⟨[], ?_, ⟨[], [], rfl, ?_, ?_⟩, ?_, ?_⟩
      · intro ev hev; exact absurd hev (List.not_mem_nil ev)
      · intro ev hev; exact absurd hev (List.not_mem_nil ev)
      · intro ev hev; exact absurd hev (List.not_mem_nil ev)
      · intro _ hmem; exact absurd hmem (List.not_mem_nil _)
      · intro e0 _
        exact ⟨fun ev hev => absurd hev (List.not_mem_nil ev), fun hne => absurd rfl hne⟩
    | ok a =>
      try rw [hexp] at ho
      try dsimp only at ho
      by_cases hcond : ((!sources.isEmpty && a.isEmpty) = true)
      · rw [if_pos hcond] at ho
        subst ho
        refine ⟨[], ?_, ⟨[], [], rfl, ?_, ?_⟩, ?_, ?_⟩
        · intro ev hev; exact absurd hev (List.not_mem_nil ev)
        · intro ev hev; exact absurd hev (List.not_mem_nil ev)
        · intro ev hev; exact absurd hev (List.not_mem_nil ev)
        · intro _ hmem; exact absurd hmem (List.not_mem_nil _)
        · intro e0 _
          exact ⟨fun ev hev => absurd hev (List.not_mem_nil ev), fun hne => absurd rfl hne⟩
      · rw [if_neg hcond] at ho
        cases hms : measurementsFromSourcesOrDB db a with
        | error e =>
          try rw [hms] at ho
          try dsimp only at ho
          subst ho
          refine ⟨[], ?_, ⟨[], [], rfl, ?_, ?_⟩, ?_, ?_⟩
          · intro ev hev; exact absurd hev (List.not_mem_nil ev)
          · intro ev hev; exact absurd hev (List.not_mem_nil ev)
          · intro ev hev; exact absurd hev (List.not_mem_nil ev)
          · intro _ hmem; exact absurd hmem (List.not_mem_nil _)
          · intro e0 _
            exact ⟨fun ev hev => absurd hev (List.not_mem_nil ev), fun hne => absurd rfl hne⟩
        | ok measurements =>
          try rw [hms] at ho
          try dsimp only at ho
          cases hck : collectSeriesKeys condition measurements with
          | error e =>
            try rw [hck] at ho
            try dsimp only at ho
            subst ho
            refine ⟨[], ?_, ⟨[], [], rfl, ?_, ?_⟩, ?_, ?_⟩
            · intro ev hev; exact absurd hev (List.not_mem_nil ev)
            · intro ev hev; exact absurd hev (List.not_mem_nil ev)
            · intro ev hev; exact absurd hev (List.not_mem_nil ev)
            · intro _ hmem; exact absurd hmem (List.not_mem_nil _)
            · intro e0 _
              exact ⟨fun ev hev => absurd hev (List.not_mem_nil ev), fun hne => absurd rfl hne⟩
          | ok seriesKeys =>
            try rw [hck] at ho
            try dsimp only at ho
            simp only [Store.deleteSeriesShards, hdbsome, if_true] at ho
            cases hle : (deleteSeriesLoop database seriesKeys s.shards).err with
            | some e =>
              try simp only [hle] at ho
              try dsimp only at ho
              subst ho
              refine ⟨seriesKeys, ?_, ?_, ?_, ?_⟩
              · intro ev hev
                exact Or.inl (deleteSeriesLoop_trace database seriesKeys s.shards ev hev)
              · refine ⟨(deleteSeriesLoop database seriesKeys s.shards).trace, [],
                  (List.append_nil _).symm, ?_, ?_⟩
                · intro ev hev
                  obtain ⟨i, rfl⟩ := deleteSeriesLoop_trace database seriesKeys s.shards ev hev
                  rfl
                · intro ev hev; exact absurd hev (List.not_mem_nil ev)
              · intro hres
                exact absurd hres (by simp)
              · intro e0 hres
                have he0 : e = e0 := by
                  injection hres
                subst he0
                constructor
                · intro ev hev
                  obtain ⟨i, rfl⟩ := deleteSeriesLoop_trace database seriesKeys s.shards ev hev
                  rfl
                · intro hne
                  obtain ⟨-, pre, bad, post, hsplit, hbdb, hberr, hpre, hshards⟩ :=
                    deleteSeriesLoop_err database seriesKeys s.shards e hle
                  exact ⟨pre, bad, post, hsplit, hbdb, hberr, hpre, hshards⟩
            | none =>
              try simp only [hle] at ho
              try dsimp only at ho
              subst ho
              obtain ⟨hsh, htr⟩ := deleteSeriesLoop_ok database seriesKeys s.shards hle
              refine ⟨seriesKeys, ?_, ?_, ?_, ?_⟩
              · intro ev hev
                rcases List.mem_append.mp hev with hev1 | hev2
                · exact Or.inl (deleteSeriesLoop_trace database seriesKeys s.shards ev hev1)
                · exact Or.inr (List.mem_singleton.mp hev2)
              · refine ⟨(deleteSeriesLoop database seriesKeys s.shards).trace,
                  [Event.indexDropSeries database seriesKeys], rfl, ?_, ?_⟩
                · intro ev hev
                  obtain ⟨i, rfl⟩ := deleteSeriesLoop_trace database seriesKeys s.shards ev hev
                  rfl
                · intro ev hev
                  rcases List.mem_singleton.mp hev with rfl
                  rfl
              · intro _ _ sh hsh2 hshdb
                exact List.mem_append_left _ (htr sh hsh2 hshdb)
              · intro e0 hres
                exact absurd hres (by simp)

/-- C1 witness: a DeleteSeries call on the sample store, whose database
db0 exists and whose single shard belongs to it. -/
theorem DeleteSeries_shardDeletes_before_indexDrop_witness :
    (sampleStore.lookupIndex "db0").isSome = true
    ∧ ∃ keys : List String,
        (∀ ev ∈ (sampleStore.DeleteSeries "db0" [] none).trace,
            (∃ i, ev = Event.engineDeleteSeries i keys)
            ∨ ev = Event.indexDropSeries "db0" keys)
        ∧ (∃ tr1 tr2, (sampleStore.DeleteSeries "db0" [] none).trace = tr1 ++ tr2
            ∧ (∀ ev ∈ tr1, ev.isEngineDel = true)
            ∧ (∀ ev ∈ tr2, ev.isIndexDrop = true))
        ∧ ((sampleStore.DeleteSeries "db0" [] none).res = .ok () →
            Event.indexDropSeries "db0" keys ∈
              (sampleStore.DeleteSeries "db0" [] none).trace →
            ∀ sh ∈ sampleStore.shards, sh.database = "db0" →
              Event.engineDeleteSeries sh.id keys ∈
                (sampleStore.DeleteSeries "db0" [] none).trace)
        ∧ (∀ e, (sampleStore.DeleteSeries "db0" [] none).res = .error e →
            (∀ ev ∈ (sampleStore.DeleteSeries "db0" [] none).trace,
                ev.isIndexDrop = false)
            ∧ ((sampleStore.DeleteSeries "db0" [] none).trace ≠ [] →
                ∃ pre bad post,
                  sampleStore.shards = pre ++ bad :: post
                  ∧ bad.database = "db0"
                  ∧ bad.deleteSeriesErr = some e
                  ∧ (∀ x ∈ pre, x.database = "db0" → x.deleteSeriesErr = none)
                  ∧ (sampleStore.DeleteSeries "db0" [] none).store.shards =
                      pre.map (fun x =>
                        if x.database == "db0" then x.removeSeriesKeys keys else x)
                      ++ bad :: post)) :=
  ⟨rfl, DeleteSeries_shardDeletes_before_indexDrop sampleStore "db0" [] none
      (sampleStore.DeleteSeries "db0" [] none) rfl rfl⟩
